import Mathlib

/-!
Verification of the `tmpdir` temporary-directory manager (`tmpdir.py`,
`tempdir.py`) against its natural-language specification.

The Python source is shallowly embedded: filesystem paths are lists of
name components, byte strings are lists of naturals, the mutable
`TmpDir` object is an explicit record, and every filesystem side effect
is recorded in an explicit trace of operations.  Fallible constructors
return `Except`.
-/

/-- A filesystem path, as a list of name components.  An absolute path
`/a/b` is `["a", "b"]`. -/
abbrev FPath := List String

/-- `os.path.commonprefix` on a pair of strings: the longest common
leading run of characters.  This is a character-wise test, not a
component-wise one. -/
def commonPre : List Char → List Char → List Char
  | x :: xs, y :: ys => if x = y then x :: commonPre xs ys else []
  | _, _ => []

/-- `os.path.commonprefix` applied to two rendered path strings. -/
def commonPreStr (a b : String) : String := String.mk (commonPre a.data b.data)

/-- The character rendering of an absolute component path:
`["a","b"]` becomes the characters of `"/a/b"`. -/
def renderChars : FPath → List Char
  | [] => []
  | c :: rest => '/' :: (c.data ++ renderChars rest)

/-- Render an absolute component path as a slash-separated string,
as `os.path.join`/`abspath` would produce it: `["a","b"]` becomes
`"/a/b"`. -/
def renderAbs (p : FPath) : String := String.mk (renderChars p)

/-- Path normalization as performed by `os.path.abspath` /
`os.path.normpath` on an absolute base joined with a relative path:
`".."` pops the last component, `"."` and empty components vanish. -/
def normSteps (acc : FPath) : List String → FPath
  | [] => acc
  | c :: rest =>
      if c = ".." then normSteps acc.dropLast rest
      else if c = "." ∨ c = "" then normSteps acc rest
      else normSteps (acc ++ [c]) rest

/-- The containment check performed by `TmpDir.load` on each archive
entry (tmpdir.py line 165-168):
`abs_path = os.path.abspath(os.path.join(self.path, filename))` and the
entry is accepted iff
`os.path.commonprefix((abs_path, self.path)) == self.path`.
Returns `true` when the entry is accepted (no `ValueError` raised). -/
def load_path_check (root : FPath) (entry : List String) : Bool :=
  let absPath := normSteps root entry
  commonPreStr (renderAbs absPath) (renderAbs root) == renderAbs root

/-- Component-wise ancestor test: `leadsList p q` holds when every
component of `p` is an initial component of `q`, i.e. `q` lies at or
below the directory `p`.  This is the separator-delimited test the
specification prescribes for containment. -/
def leadsList : FPath → FPath → Bool
  | [], _ => true
  | _ :: _, [] => false
  | x :: xs, y :: ys => x == y && leadsList xs ys

/-- Strict component-wise descendance: `q` lies strictly below `p`. -/
def strictlyUnder (p q : FPath) : Bool := leadsList p q && decide (p ≠ q)

/-! ## Archive type sniffing (`sniff_archive_type`, tmpdir.py 220-267) -/

/-- The extension table of `sniff_archive_type`. -/
def types_by_extension : List (String × String) :=
  [(".bz2", "bz2"), (".tbz", "bz2"), (".tb2", "bz2"), (".tbz2", "bz2"),
   (".zip", "zip"), (".gzip", "gz"), (".gz", "gz"), (".tgz", "gz"),
   (".tar", "tar")]

/-- The basename of a path string, as a character list: everything after
the last slash. -/
def basenameChars (cs : List Char) : List Char :=
  (((cs.reverse).takeWhile (fun c => c ≠ '/')).reverse)

/-- Index of the last occurrence of a dot in a character list. -/
def lastDotIdx (cs : List Char) : Option Nat :=
  match (cs.reverse).findIdx? (fun c => c = '.') with
  | some i => some (cs.length - 1 - i)
  | none => none

/-- `os.path.splitext(name)[1]`: the extension (including the dot) of
the basename, empty when the only dots are a leading run (so
`".bashrc"` has no extension). -/
def splitext_ext (nm : String) : String :=
  let base := basenameChars nm.data
  match lastDotIdx base with
  | none => ""
  | some d =>
      if (base.take d).all (fun c => c = '.') then ""
      else String.mk (base.drop d)

/-- A Python file-like stream as observed by `sniff_archive_type`:
its `name` attribute if any, its `mode` attribute (defaulted to the
empty string by `getattr`), whether it supports `seek` and `tell`,
and the bytes readable from the current position.  A bare string
argument is modelled as a stream with that `name`, no mode and no
seek support, matching the wrapper class built at tmpdir.py 237-240. -/
structure PyStream where
  name : Option String
  mode : String
  seekable : Bool
  data : List Nat
deriving DecidableEq, Repr

/-- The result of looking up the stream's filename extension in the
extension table, when the stream has a `name` at all. -/
def extMatchOf (f : PyStream) : Option String :=
  match f.name with
  | some nm => types_by_extension.lookup (splitext_ext nm)
  | none => none

/-- `sniff_archive_type(f, default)` (tmpdir.py 220-267): try the
extension table on `f.name`; otherwise, if the stream is readable and
seekable, read the two leading bytes and compare against the gzip
(`1F 8B`), bzip2 (`BZ`) and zip (`PK`) magic numbers, then look for
`"ustar"` at offset 257; otherwise return the caller's default. -/
def sniff_archive_type (f : PyStream) (dflt : String) : String :=
  match extMatchOf f with
  | some ty => ty
  | none =>
      if f.seekable && f.mode.data.contains 'r' then
        let leading := f.data.take 2
        if leading = [0x1F, 0x8B] then "gz"
        else if leading = [0x42, 0x5A] then "bz2"
        else if leading = [0x50, 0x4B] then "zip"
        else if (f.data.drop 257).take 5 = [0x75, 0x73, 0x74, 0x61, 0x72] then "tar"
        else dflt
      else dflt

/-! ## The `TmpDir` lifecycle state machine (tmpdir.py 46-120) -/

/-- Filesystem side effects performed by the lifecycle methods. -/
inductive FsOp where
  | mkdtemp (p : FPath)
  | mkdir (p : FPath)
  | renameDir (src dst : FPath)
  | rmtreeOp (p : FPath)
  | srmOp (p : FPath)
  | psdOp (p : FPath)
  | whichSrm
deriving DecidableEq, Repr

/-- Python-level failures surfaced by the embedded methods. -/
inductive PyErr where
  | nameError (n : String)
  | raised (n : String)
  | calledProcessError
deriving DecidableEq, Repr

/-- The names defined at module level in tmpdir.py (imports, module
dunders, and the five module-level definitions). -/
def module_globals : List String :=
  ["calendar", "contextlib", "os", "random", "shlex", "shutil", "string",
   "subprocess", "sys", "time", "tarfile", "tempfile", "zipfile",
   "TmpDir", "WorkingDirectoryContextManager", "sniff_archive_type",
   "rand_name", "pseudosecure_delete_directory", "main"]

/-- Python builtin exception names visible without definition. -/
def py_builtins : List String :=
  ["ValueError", "TypeError", "AttributeError", "OSError", "NameError",
   "KeyError", "Exception", "BaseException", "RuntimeError"]

/-- Evaluating `raise N(...)` for an identifier `N`: if `N` resolves in
the module or builtins the named exception is raised, otherwise the
lookup itself fails with a `NameError`. -/
def raise_name (n : String) : PyErr :=
  if module_globals.contains n || py_builtins.contains n then .raised n
  else .nameError n

/-- A value passed as the `deletion` argument: the constructor default
`False`, `load`s default `None`, or a string. -/
inductive PyArg where
  | pyNone
  | pyFalse
  | pyStr (s : String)
deriving DecidableEq, Repr

/-- The four recognized deletion policy strings (tmpdir.py 58-59). -/
def valid_deletions : List String :=
  ["secure", "attempt-secure", "pseudo-secure", "not-secure"]

/-- Whether a `deletion` argument is one of the four policy strings. -/
def argIsValidDeletion : PyArg → Bool
  | .pyStr s => valid_deletions.contains s
  | _ => false

/-- The state of a `TmpDir` instance. -/
structure TmpDirSt where
  closed : Bool
  deletion : String
  outer : FPath
  innerName : String
  path : FPath
deriving DecidableEq, Repr

/-- `inner_name or "tmp"`: Python `or` replaces both `None` and the
empty string by the default. -/
def defaultInner : Option String → String
  | none => "tmp"
  | some s => if s = "" then "tmp" else s

/-- `TmpDir.__init__` (tmpdir.py 55-81).  `srmAvailable` is whether
`which srm` succeeds; `outerFresh` is the fresh path returned by
`tempfile.mkdtemp()`.  Returns the trace of filesystem operations
performed together with the new state, or the error raised.
The membership test, the capability probe (run before any directory is
created) and the `attempt-secure` degradation follow the source; an
unrecognized `deletion` evaluates the undefined name `ArgumentError`. -/
def tmpdir_init (innerArg : Option String) (deletionArg : PyArg)
    (srmAvailable : Bool) (outerFresh : FPath) :
    List FsOp × Except PyErr TmpDirSt :=
  let mkRest : String → List FsOp × Except PyErr TmpDirSt := fun d =>
    let inner := defaultInner innerArg
    ([.mkdtemp outerFresh, .mkdir (outerFresh ++ [inner])],
     .ok { closed := false, deletion := d, outer := outerFresh,
           innerName := inner, path := outerFresh ++ [inner] })
  match deletionArg with
  | .pyStr s =>
      if valid_deletions.contains s then
        if s = "secure" ∨ s = "attempt-secure" then
          if srmAvailable then
            let r := mkRest "secure"
            (.whichSrm :: r.1, r.2)
          else if s = "attempt-secure" then
            let r := mkRest "pseudo-secure"
            (.whichSrm :: r.1, r.2)
          else ([.whichSrm], .error .calledProcessError)
        else mkRest s
      else ([], .error (raise_name "ArgumentError"))
  | _ => ([], .error (raise_name "ArgumentError"))

/-- `TmpDir.close` (tmpdir.py 83-101).  `tmpFresh` is the fresh path
returned by `tempfile.mkdtemp()` and `newLeaf` the random name chosen
by `rand_name()`.  When already closed, nothing happens.  Otherwise the
directory is renamed into the fresh location and then erased: the
`if not self.deletion` branch fires only for a falsy (empty) string,
`"pseudo-secure"` gets the in-process wipe, and every other value —
including `"not-secure"` — reaches the `else` branch that invokes
`srm`. -/
def tmpdir_close (st : TmpDirSt) (tmpFresh : FPath) (newLeaf : String) :
    TmpDirSt × List FsOp :=
  if st.closed then (st, [])
  else
    let newPath := tmpFresh ++ [newLeaf]
    let st2 : TmpDirSt := { st with closed := true, path := newPath }
    let delOps : List FsOp :=
      if st.deletion = "" then [.rmtreeOp tmpFresh, .rmtreeOp st.outer]
      else if st.deletion = "pseudo-secure" then
        [.psdOp tmpFresh, .psdOp st.outer]
      else [.srmOp tmpFresh, .srmOp st.outer]
    (st2, [.mkdtemp tmpFresh, .renameDir st.path newPath] ++ delOps)

/-- Semantics of one filesystem operation on the set (list) of existing
storage paths.  `rename` relocates the whole subtree; the three removal
operations delete the path and everything below it. -/
def applyFsOp (fs : List FPath) : FsOp → List FPath
  | .mkdtemp p => fs ++ [p]
  | .mkdir p => fs ++ [p]
  | .renameDir src dst =>
      fs.map (fun q => if leadsList src q then dst ++ q.drop src.length else q)
  | .rmtreeOp p => fs.filter (fun q => !leadsList p q)
  | .srmOp p => fs.filter (fun q => !leadsList p q)
  | .psdOp p => fs.filter (fun q => !leadsList p q)
  | .whichSrm => fs

/-- Apply a trace of filesystem operations in order. -/
def applyOps (fs : List FPath) (ops : List FsOp) : List FPath :=
  ops.foldl applyFsOp fs

/-! ## The directory tree model (for `dump`/`load` and the wipe) -/

/-- A directory: named subdirectories and named files with byte
contents, each kept in listing order. -/
inductive FsTree where
  | node : List (String × FsTree) → List (String × List Nat) → FsTree

/-- The empty directory. -/
def emptyDir : FsTree := .node [] []

/-- The subdirectory entries of a directory. -/
def FsTree.dirs : FsTree → List (String × FsTree)
  | .node ds _ => ds

/-- The file entries of a directory. -/
def FsTree.files : FsTree → List (String × List Nat)
  | .node _ fs => fs

/-- Association lookup among subdirectory entries. -/
def childNamed (ds : List (String × FsTree)) (n : String) : Option FsTree :=
  match ds with
  | [] => none
  | (m, c) :: rest => if m = n then some c else childNamed rest n

/-- Replace the subdirectory bound to `n` (no effect if absent). -/
def setChild (ds : List (String × FsTree)) (n : String) (c : FsTree) :
    List (String × FsTree) :=
  match ds with
  | [] => []
  | (m, c0) :: rest =>
      if m = n then (m, c) :: rest else (m, c0) :: setChild rest n c

/-- Write a file entry: overwrite the existing binding, else append. -/
def setFile (fs : List (String × List Nat)) (n : String) (d : List Nat) :
    List (String × List Nat) :=
  match fs with
  | [] => [(n, d)]
  | (m, d0) :: rest =>
      if m = n then (m, d) :: rest else (m, d0) :: setFile rest n d

/-- The subtree of a directory at a component path, if it exists. -/
def subtreeAt : FsTree → FPath → Option FsTree
  | t, [] => some t
  | .node ds _, n :: rest =>
      match childNamed ds n with
      | some c => subtreeAt c rest
      | none => none

/-- Rewrite the subtree at an existing component path (no effect when
the path does not lead to a directory). -/
def mapAt : FsTree → FPath → (FsTree → FsTree) → FsTree
  | t, [], f => f t
  | .node ds fls, n :: rest, f =>
      match childNamed ds n with
      | some c => .node (setChild ds n (mapAt c rest f)) fls
      | none => .node ds fls

/-- `os.makedirs` semantics guarded by `os.path.exists`: create every
missing directory component along the path, leaving existing ones (and
everything else) untouched. -/
def ensureDirs : FsTree → FPath → FsTree
  | t, [] => t
  | .node ds fls, n :: rest =>
      match childNamed ds n with
      | some c => .node (setChild ds n (ensureDirs c rest)) fls
      | none => .node (ds ++ [(n, ensureDirs emptyDir rest)]) fls

/-- Write a file at a component path, creating missing directories on
the way (the final component is the file name). -/
def addFile : FsTree → FPath → List Nat → FsTree
  | t, [], _ => t
  | .node ds fls, [n], d => .node ds (setFile fls n d)
  | .node ds fls, n :: m :: rest, d =>
      match childNamed ds n with
      | some c => .node (setChild ds n (addFile c (m :: rest) d)) fls
      | none => .node (ds ++ [(n, addFile emptyDir (m :: rest) d)]) fls

/-- One member of a tar archive: a file with contents, or a directory.
`rel` is the path recorded in the archive, relative to the sandbox
root (the uniform `"./"` prefix produced by `os.walk(".")` is dropped,
as `os.path.abspath` normalizes it away). -/
inductive ArchiveEntry where
  | file (rel : FPath) (data : List Nat)
  | dir (rel : FPath)
deriving DecidableEq, Repr

/-- The archive path of an entry. -/
def ArchiveEntry.rel : ArchiveEntry → FPath
  | .file p _ => p
  | .dir p => p

mutual
/-- `tarfile.TarFile.add` applied to a directory with the default
`recursive=True` (tmpdir.py 193-194 binds `archive_add` to
`archive.add` for tar output): emit the directory's own entry, then
recursively every entry below it, depth-first in listing order (the
model lists a directory's files before its subdirectories, the same
single listing that `os.walk` splits into its `files` and `dirs`). -/
def tarAddDir (p : FPath) : FsTree → List ArchiveEntry
  | .node ds fls =>
      ArchiveEntry.dir p
        :: (fls.map (fun nf => ArchiveEntry.file (p ++ [nf.1]) nf.2)
            ++ tarAddChildren p ds)

/-- The recursive adds of a directory's subdirectories, in listing
order. -/
def tarAddChildren (p : FPath) : List (String × FsTree) → List ArchiveEntry
  | [] => []
  | (n, t) :: rest => tarAddDir (p ++ [n]) t ++ tarAddChildren p rest
end

mutual
/-- `TmpDir.dump` over a tar-like archive (tmpdir.py 196-204): walk the
tree top-down from `p` with `os.walk(".")`; in each directory
`archive_add` its files (single-file adds), then `archive_add` each
subdirectory — and because `tarfile.TarFile.add` is recursive by
default, each such add emits that subdirectory's entire subtree — then
descend into each subdirectory in order, re-emitting the deeper
entries once more per ancestor. -/
def walkDump (p : FPath) : FsTree → List ArchiveEntry
  | .node ds fls =>
      fls.map (fun nf => .file (p ++ [nf.1]) nf.2)
        ++ tarAddChildren p ds
        ++ walkDumpChildren p ds

/-- Recursive walk over the subdirectories, in listing order. -/
def walkDumpChildren (p : FPath) : List (String × FsTree) → List ArchiveEntry
  | [] => []
  | (n, t) :: rest => walkDump (p ++ [n]) t ++ walkDumpChildren p rest
end

/-- Extraction of one validated archive entry by `TmpDir.load`
(tmpdir.py 170-176): split off the final component, `os.makedirs` the
leading directories when missing, then extract — a file entry writes
its contents, a directory entry creates the directory. -/
def loadStep (t : FsTree) : ArchiveEntry → FsTree
  | .file p d => addFile (ensureDirs t p.dropLast) p d
  | .dir p => ensureDirs t p

/-- `TmpDir.load` over an entry sequence (tmpdir.py 157-176): each
entry path is first resolved against the sandbox root and checked with
`os.path.commonprefix`; a failing entry aborts the load (`ValueError`,
modelled as `none`), an accepted one is extracted. -/
def loadEntriesFrom (root : FPath) (acc : Option FsTree)
    (es : List ArchiveEntry) : Option FsTree :=
  match es with
  | [] => acc
  | e :: rest =>
      match acc with
      | none => none
      | some t =>
          if load_path_check root e.rel then
            loadEntriesFrom root (some (loadStep t e)) rest
          else none

/-- Load an archive into a fresh (empty) sandbox rooted at `root`. -/
def loadArchive (root : FPath) (es : List ArchiveEntry) : Option FsTree :=
  loadEntriesFrom root (some emptyDir) es

/-- A name is a legal directory-listing name: nonempty, not a dot
entry, and free of the path separator. -/
def goodName (n : String) : Bool :=
  n ≠ "" && n ≠ "." && n ≠ ".." && !n.data.contains '/'

mutual
/-- Well-formedness of a directory tree as a real filesystem listing:
in every directory the subdirectory names and the file names are legal
and duplicate-free. -/
def wellFormed : FsTree → Bool
  | .node ds fls =>
      (ds.map Prod.fst).all goodName
        && (fls.map Prod.fst).all goodName
        && ((ds.map Prod.fst) ++ (fls.map Prod.fst)).Nodup
        && wellFormedChildren ds

/-- Well-formedness of every subdirectory. -/
def wellFormedChildren : List (String × FsTree) → Bool
  | [] => true
  | (_, t) :: rest => wellFormed t && wellFormedChildren rest
end

/-! ## Working-directory context managers (C6) -/

/-- The state of a `WorkingDirectoryContextManager` (tmpdir.py
206-218). -/
structure WcmSt where
  path : String
  previous_paths : List String
deriving DecidableEq, Repr

/-- `WorkingDirectoryContextManager.__enter__`: push the current
working directory and `chdir` to the target.  Returns the new process
working directory and the updated manager. -/
def wcm_enter (cwd : String) (w : WcmSt) : String × WcmSt :=
  (w.path, { w with previous_paths := w.previous_paths ++ [cwd] })

/-- `WorkingDirectoryContextManager.__exit__`: `chdir` back to the
popped previous directory (run by the `with` statement on every exit
path, error exits included). -/
def wcm_exit (cwd : String) (w : WcmSt) : String × WcmSt :=
  match w.previous_paths.getLast? with
  | some prev => (prev, { w with previous_paths := w.previous_paths.dropLast })
  | none => (cwd, w)

/-- `TmpDir.__enter__` (tmpdir.py 116-117): returns `self` and touches
nothing — in particular the process working directory is unchanged. -/
def tmpdir_enter (cwd : String) (st : TmpDirSt) : String × TmpDirSt :=
  (cwd, st)

/-- `TmpDir.__exit__` (tmpdir.py 119-120): calls `close()`; the working
directory is not touched. -/
def tmpdir_exit (cwd : String) (st : TmpDirSt) (tmpFresh : FPath)
    (newLeaf : String) : String × (TmpDirSt × List FsOp) :=
  (cwd, tmpdir_close st tmpFresh newLeaf)

/-- The state of a `TempDir` instance (tempdir.py). -/
structure TempDirSt where
  closed : Bool
  secure : Bool
  path : String
  owd : String
deriving DecidableEq, Repr

/-- `TempDir.__enter__` (tempdir.py 82-88): remember the current
working directory in `self.__owd` and `chdir` to `self.path`. -/
def tempdir_enter (cwd : String) (st : TempDirSt) : String × TempDirSt :=
  (st.path, { st with owd := cwd })

/-- `TempDir.__exit__` (tempdir.py 90-92): `chdir` back to the saved
directory, then `close()` (here: mark closed). -/
def tempdir_exit (_cwd : String) (st : TempDirSt) : String × TempDirSt :=
  (st.owd, { st with closed := true })

/-! ## The pseudo-secure wipe (`pseudosecure_delete_directory`,
tmpdir.py 272-311, and `rand_name`, 269-270) -/

/-- The alphabet of `rand_name`: ASCII letters, digits and the
underscore. -/
def name_chars : List Char :=
  "abcdefghijklmnopqrstuvwxyzABCDEFGHIJKLMNOPQRSTUVWXYZ0123456789_".data

/-- `rand_name(length, chars)` with the default alphabet: `length`
independent draws from the alphabet, `pick i` being the i-th draw of
`random.choice`. -/
def rand_name (pick : Nat → Nat) (length : Nat) : String :=
  String.mk ((List.range length).map
    (fun i => name_chars.getD (pick i % name_chars.length) '_'))

/-- Low-level operations recorded by the wipe. -/
inductive WipeOp where
  | write (p : FPath) (n : Nat)
  | flush (p : FPath)
  | fsync (p : FPath)
  | rename (src dst : FPath)
  | remove (p : FPath)
  | rmdir (p : FPath)
  | rmtreeTop (p : FPath)
deriving DecidableEq, Repr

/-- The zero-overwrite loop for one file (tmpdir.py 280-288): while
bytes remain, write `min(remaining, 1024)` zero bytes, flush, fsync,
and subtract. -/
def chunkOps (p : FPath) (remaining : Nat) : List WipeOp :=
  if remaining = 0 then []
  else
    let n := min remaining 1024
    WipeOp.write p n :: WipeOp.flush p :: WipeOp.fsync p
      :: chunkOps p (remaining - n)
termination_by remaining
decreasing_by simp_wf; omega

mutual
/-- Wipe phase 1 (tmpdir.py 273-288): `os.walk` top-down; in every
directory, overwrite each regular file with zero bytes in flushed and
synced chunks. -/
def phase1 (p : FPath) : FsTree → List WipeOp
  | .node ds fls =>
      (fls.map (fun nf => chunkOps (p ++ [nf.1]) nf.2.length)).flatten
        ++ phase1Children p ds

/-- Phase 1 over the subdirectories, in listing order. -/
def phase1Children (p : FPath) : List (String × FsTree) → List WipeOp
  | [] => []
  | (n, t) :: rest => phase1 (p ++ [n]) t ++ phase1Children p rest
end

mutual
/-- Wipe phase 2 (tmpdir.py 290-299): `os.walk` bottom-up; in every
directory rename each file to a fresh random name suffixed `".tmp"`,
then each subdirectory to a fresh random name.  `nn q` is the random
name generated for the entry whose original path is `q`.  Returns the
operation trace and the renamed tree. -/
def phase2 (nn : FPath → String) (p : FPath) : FsTree → List WipeOp × FsTree
  | .node ds fls =>
      let cs := phase2Children nn p ds
      (cs.1
         ++ fls.map (fun nf =>
              WipeOp.rename (p ++ [nf.1]) (p ++ [nn (p ++ [nf.1]) ++ ".tmp"]))
         ++ ds.map (fun nd =>
              WipeOp.rename (p ++ [nd.1]) (p ++ [nn (p ++ [nd.1])])),
       .node (List.zipWith (fun nd c => (nn (p ++ [nd.1]), c)) ds cs.2)
         (fls.map (fun nf => (nn (p ++ [nf.1]) ++ ".tmp", nf.2))))

/-- Phase 2 over the subdirectories: deeper triples are emitted before
the parent triple, in listing order. -/
def phase2Children (nn : FPath → String) (p : FPath) :
    List (String × FsTree) → List WipeOp × List FsTree
  | [] => ([], [])
  | (n, t) :: rest =>
      let r1 := phase2 nn (p ++ [n]) t
      let r2 := phase2Children nn p rest
      (r1.1 ++ r2.1, r1.2 :: r2.2)
end

mutual
/-- Wipe phase 3 (tmpdir.py 301-308): `os.walk` bottom-up over the
renamed tree; in every directory remove each file with `os.remove`,
then each (already emptied) subdirectory with `os.rmdir`. -/
def phase3 (p : FPath) : FsTree → List WipeOp
  | .node ds fls =>
      phase3Children p ds
        ++ fls.map (fun nf => WipeOp.remove (p ++ [nf.1]))
        ++ ds.map (fun nd => WipeOp.rmdir (p ++ [nd.1]))

/-- Phase 3 over the subdirectories, deeper triples first. -/
def phase3Children (p : FPath) : List (String × FsTree) → List WipeOp
  | [] => []
  | (n, t) :: rest => phase3 (p ++ [n]) t ++ phase3Children p rest
end

/-- `pseudosecure_delete_directory(path)` on a directory tree `t`
rooted at `root`: the three walks in sequence, then
`shutil.rmtree(path)` on the (by now empty) root itself
(tmpdir.py 311). -/
def pseudosecure_delete_directory (nn : FPath → String) (root : FPath)
    (t : FsTree) : List WipeOp :=
  phase1 root t
    ++ (phase2 nn root t).1
    ++ phase3 root (phase2 nn root t).2
    ++ [WipeOp.rmtreeTop root]

/-- Classification of wipe operations: the overwrite family. -/
def isOverwriteOp : WipeOp → Bool
  | .write _ _ => true
  | .flush _ => true
  | .fsync _ => true
  | _ => false

/-- Classification of wipe operations: renames. -/
def isRenameOp : WipeOp → Bool
  | .rename _ _ => true
  | _ => false

/-- Classification of wipe operations: removals of files and
directories. -/
def isRemoveOp : WipeOp → Bool
  | .remove _ => true
  | .rmdir _ => true
  | _ => false

/-- Total number of zero bytes written by a wipe-operation list. -/
def sumWrites : List WipeOp → Nat
  | [] => 0
  | .write _ n :: rest => n + sumWrites rest
  | _ :: rest => sumWrites rest

/-- Whether a wipe-operation list is a sequence of chunk blocks, each a
write of at most 1024 bytes immediately followed by its flush and its
fsync. -/
def chunkShaped : List WipeOp → Bool
  | [] => true
  | .write p n :: .flush q :: .fsync r :: rest =>
      decide (n ≤ 1024) && decide (0 < n) && (p == q) && (p == r)
        && chunkShaped rest
  | _ => false

mutual
/-- The number of entries (files and directories) of a tree, counted
recursively. -/
def entryCount : FsTree → Nat
  | .node ds fls => fls.length + entryCountChildren ds

/-- Entry count over subdirectory lists. -/
def entryCountChildren : List (String × FsTree) → Nat
  | [] => 0
  | (_, t) :: rest => 1 + entryCount t + entryCountChildren rest
end

/-- The contents of the file at a component path of a tree, if any
(the final component is the file name). -/
def fileAtPath : FsTree → FPath → Option (List Nat)
  | _, [] => none
  | .node _ fls, [n] => fls.lookup n
  | .node ds _, n :: m :: rest =>
      match childNamed ds n with
      | some c => fileAtPath c (m :: rest)
      | none => none

/-- Total zero bytes written to one particular path by a
wipe-operation list. -/
def writesTo (p : FPath) : List WipeOp → Nat
  | [] => 0
  | .write q n :: rest => (if q = p then n else 0) + writesTo p rest
  | _ :: rest => writesTo p rest

/-- The source path of a rename operation. -/
def renameSrc : WipeOp → Option FPath
  | .rename s _ => some s
  | _ => none

/-- The target path of a remove or rmdir operation. -/
def removeTarget : WipeOp → Option FPath
  | .remove p => some p
  | .rmdir p => some p
  | _ => none

mutual
/-- Mutual recursive check that sibling directory names are
duplicate-free throughout a tree (the part of well-formedness phase 3
relies on, stated of the renamed tree). -/
def sibDirsNodup : FsTree → Bool
  | .node ds _ => (ds.map Prod.fst).Nodup && sibDirsNodupChildren ds

/-- `sibDirsNodup` over the subdirectories. -/
def sibDirsNodupChildren : List (String × FsTree) → Bool
  | [] => true
  | (_, t) :: rest => sibDirsNodup t && sibDirsNodupChildren rest
end

/-- Ordering relation between wipe operations: if both are renames, the
later one's source does not lie strictly below the earlier one's source
(so subtrees are renamed bottom-up). -/
def srcNotAbove (o1 o2 : WipeOp) : Prop :=
  ∀ s1 d1 s2 d2, o1 = WipeOp.rename s1 d1 → o2 = WipeOp.rename s2 d2 →
    strictlyUnder s1 s2 = false

/-- Ordering relation between wipe operations: if both are removals,
the later one's target does not lie strictly below the earlier one's
target (so subtrees are removed bottom-up). -/
def targetNotAbove (o1 o2 : WipeOp) : Prop :=
  ∀ p1 p2, removeTarget o1 = some p1 → removeTarget o2 = some p2 →
    strictlyUnder p1 p2 = false

/-! ## Helper lemmas -/

theorem leadsList_iff (p q : FPath) : leadsList p q = true ↔ ∃ r, q = p ++ r := by
  induction p generalizing q with
  | nil =>
      simp [leadsList]
  | cons x xs ih =>
      cases q with
      | nil =>
          simp [leadsList]
      | cons y ys =>
          simp only [leadsList, Bool.and_eq_true, beq_iff_eq, ih,
            List.cons_append, List.cons.injEq]
          constructor
          · rintro ⟨h1, r, h2⟩
            exact ⟨r, h1.symm, h2⟩
          · rintro ⟨r, h1, h2⟩
            exact ⟨h1.symm, r, h2⟩

theorem leadsList_append_self (p r : FPath) : leadsList p (p ++ r) = true :=
  (leadsList_iff p (p ++ r)).2 ⟨r, rfl⟩

theorem leadsList_refl (p : FPath) : leadsList p p = true := by
  have := leadsList_append_self p []
  simpa using this

theorem leadsList_trans {a b c : FPath} (h1 : leadsList a b = true)
    (h2 : leadsList b c = true) : leadsList a c = true := by
  rcases (leadsList_iff a b).1 h1 with ⟨r, rfl⟩
  rcases (leadsList_iff (a ++ r) c).1 h2 with ⟨s, rfl⟩
  exact (leadsList_iff a (a ++ r ++ s)).2 ⟨r ++ s, by simp⟩

theorem fsTree_strong_ind (P : FsTree → Prop)
    (h : ∀ ds fls, (∀ x ∈ ds, P x.2) → P (.node ds fls)) : ∀ t, P t
  | .node ds fls => h ds fls (fun x hx => fsTree_strong_ind P h x.2)
termination_by t => sizeOf t
decreasing_by
  have h1 := List.sizeOf_lt_of_mem hx
  obtain ⟨a, b⟩ := x
  simp at h1 ⊢
  omega

/-! ## Claim theorems -/

/-- C1: the spec claims every archive entry resolving outside the
sandbox root — including one resolving to a sibling directory whose
name has the root as a string prefix — is rejected with a
path-traversal error before any write, by a component-wise prefix test.
The code instead uses `os.path.commonprefix`, a naive character-wise
string prefix: with sandbox root `/outer/tmp`, the entry
`../tmp-evil/x` resolves to `/outer/tmp-evil/x`, is NOT a
component-wise descendant of the root, yet PASSES the code's check and
is subsequently extracted outside the sandbox. -/
theorem load_commonprefix_sibling_escape :
    normSteps ["outer", "tmp"] ["..", "tmp-evil", "x"]
        = ["outer", "tmp-evil", "x"] ∧
    load_path_check ["outer", "tmp"] ["..", "tmp-evil", "x"] = true ∧
    leadsList ["outer", "tmp"] ["outer", "tmp-evil", "x"] = false := by
  refine ⟨by decide, by decide, by decide⟩

/-- C5: the spec says that under the user-facing `"not-secure"` policy
`close()` performs ordinary recursive removal and never invokes the
external wipe tool.  In the code, `close` selects the `shutil.rmtree`
branch only when `not self.deletion` — and the nonempty string
`"not-secure"` is truthy — so a `"not-secure"` instance falls through
to the `else` branch and calls `srm` on both directories, performing no
`rmtree` at all. -/
theorem notsecure_close_invokes_srm :
    (tmpdir_close
        { closed := false, deletion := "not-secure", outer := ["o"],
          innerName := "tmp", path := ["o", "tmp"] } ["t"] "r").2
      = [FsOp.mkdtemp ["t"], FsOp.renameDir ["o", "tmp"] ["t", "r"],
         FsOp.srmOp ["t"], FsOp.srmOp ["o"]] ∧
    FsOp.srmOp ["t"]
        ∈ (tmpdir_close
            { closed := false, deletion := "not-secure", outer := ["o"],
              innerName := "tmp", path := ["o", "tmp"] } ["t"] "r").2 ∧
    (∀ p, FsOp.rmtreeOp p
        ∉ (tmpdir_close
            { closed := false, deletion := "not-secure", outer := ["o"],
              innerName := "tmp", path := ["o", "tmp"] } ["t"] "r").2) := by
  refine ⟨by decide, by decide, ?_⟩
  intro p
  simp [tmpdir_close]

/-- C8: `close()` is idempotent and one-way: a second `close` on any
state returns the same state unchanged and performs no filesystem
operation (and raises nothing — the embedding is a total function),
and any `close` leaves the instance in the `Closed` state. -/
theorem close_idempotent (st : TmpDirSt) (a c : FPath) (b d : String) :
    tmpdir_close (tmpdir_close st a b).1 c d = ((tmpdir_close st a b).1, []) ∧
    ((tmpdir_close st a b).1).closed = true := by
  unfold tmpdir_close
  by_cases h : st.closed <;> simp [h]

/-- C9: requesting the `"secure"` policy when `srm` is absent makes the
constructor fail with the `CalledProcessError` re-raised from the
capability probe, before any directory is created (the trace holds only
the probe, no `mkdtemp`/`mkdir`); requesting `"attempt-secure"` in the
same situation succeeds, silently degrading the effective policy to
`"pseudo-secure"`. -/
theorem capability_check_at_construction (inner : Option String)
    (outer : FPath) :
    tmpdir_init inner (.pyStr "secure") false outer
        = ([FsOp.whichSrm], .error .calledProcessError) ∧
    tmpdir_init inner (.pyStr "attempt-secure") false outer
        = ([FsOp.whichSrm, FsOp.mkdtemp outer,
            FsOp.mkdir (outer ++ [defaultInner inner])],
           .ok { closed := false, deletion := "pseudo-secure", outer := outer,
                 innerName := defaultInner inner,
                 path := outer ++ [defaultInner inner] }) := by
  constructor <;> simp [tmpdir_init, valid_deletions]

/-- C10: whenever the `deletion` argument is not one of the four policy
strings — including the constructor's own default `False` and the
`deletion=None` that `load` passes through — the constructor creates no
directory (empty operation trace) and fails; but because the name
`ArgumentError` it tries to raise is defined neither in the module nor
in the builtins, the failure is a `NameError` from the name lookup, not
a distinguishable error value. -/
theorem invalid_deletion_nameerror (inner : Option String) (srm : Bool)
    (outer : FPath) (arg : PyArg) (h : argIsValidDeletion arg = false) :
    tmpdir_init inner arg srm outer
      = ([], .error (.nameError "ArgumentError")) := by
  cases arg with
  | pyNone => simp [tmpdir_init, raise_name, module_globals, py_builtins]
  | pyFalse => simp [tmpdir_init, raise_name, module_globals, py_builtins]
  | pyStr s =>
      simp only [argIsValidDeletion] at h
      have h2 : s ∉ valid_deletions := by simpa using h
      simp [tmpdir_init, h2, raise_name, module_globals, py_builtins]

/-- Witness for C10 at the concrete default argument `None` passed by
`load`. -/
theorem invalid_deletion_nameerror_witness :
    argIsValidDeletion PyArg.pyNone = false ∧
    tmpdir_init none PyArg.pyNone true ["o"]
      = ([], .error (.nameError "ArgumentError")) :=
  ⟨by decide, invalid_deletion_nameerror none true ["o"] PyArg.pyNone (by decide)⟩

/-- C6 counterexample: entering `TmpDir`'s bounded-use block
(`with d:`) does not change the process working directory — here the
working directory stays `/home/u` although the sandbox root renders as
`/o/tmp` — refuting "the process working directory equals the sandbox
root for the whole duration of the block". -/
theorem tmpdir_enter_cwd_unchanged :
    (tmpdir_enter "/home/u"
        { closed := false, deletion := "not-secure", outer := ["o"],
          innerName := "tmp", path := ["o", "tmp"] }).1 = "/home/u" ∧
    renderAbs ["o", "tmp"] ≠ "/home/u" := by
  refine ⟨rfl, by decide⟩

/-- C6 as amended: for `TmpDir` the bounded-use block leaves the
working directory unchanged on entry and on exit, and guarantees
`close()` when the block ends; working-directory scoping is provided
separately by `as_cwd()` (`WorkingDirectoryContextManager`), whose
entry switches the working directory to the target after pushing the
previous one and whose exit — run on every exit path of a `with` block,
error exits included — restores the pushed directory; the historical
`TempDir` variant combines both behaviors in its own block: entry
switches the working directory to the sandbox root, exit restores the
saved one and closes. -/
theorem bounded_block_semantics (cwd cwd2 : String) (st : TmpDirSt)
    (w : WcmSt) (ts : TempDirSt) (a : FPath) (b : String) :
    (tmpdir_enter cwd st).1 = cwd ∧
    (tmpdir_enter cwd st).2 = st ∧
    (tmpdir_exit cwd st a b).1 = cwd ∧
    (tmpdir_exit cwd st a b).2 = tmpdir_close st a b ∧
    (wcm_enter cwd w).1 = w.path ∧
    (wcm_exit cwd2 (wcm_enter cwd w).2).1 = cwd ∧
    (wcm_exit cwd2 (wcm_enter cwd w).2).2.previous_paths = w.previous_paths ∧
    (tempdir_enter cwd ts).1 = ts.path ∧
    (tempdir_exit cwd2 (tempdir_enter cwd ts).2).1 = cwd ∧
    ((tempdir_exit cwd2 (tempdir_enter cwd ts).2).2).closed = true := by
  refine ⟨rfl, rfl, rfl, rfl, rfl, ?_, ?_, rfl, rfl, rfl⟩
  · simp [wcm_enter, wcm_exit]
  · simp [wcm_enter, wcm_exit]

/-- C7 counterexample: the extension lookup runs before the magic-byte
sniff, so a stream whose name ends in `".zip"` but whose leading bytes
are the gzip magic `1F 8B` is detected as `"zip"`, not `"gz"` —
refuting "detects Gzip whenever the stream's leading two bytes are
1F 8B regardless of filename". -/
theorem sniff_extension_precedes_magic :
    sniff_archive_type
        { name := some "x.zip", mode := "rb", seekable := true,
          data := [0x1F, 0x8B, 0x08] } "tar" = "zip" ∧
    ([0x1F, 0x8B, 0x08] : List Nat).take 2 = [0x1F, 0x8B] ∧
    ("zip" : String) ≠ "gz" := by
  refine ⟨by decide, by decide, by decide⟩

/-- C7 as amended: sniffing detects Gzip from leading bytes `1F 8B`
whenever the filename's extension is not in the recognized table (the
recognized extension otherwise takes precedence) and the stream is
readable and seekable; detects Zip from a `".zip"` filename extension
alone, with no look at the stream; and returns the caller-supplied
default when the extension matches nothing and the magic bytes are
unreadable, or readable but match nothing recognized. -/
theorem sniff_detection_rules (f : PyStream) (dflt : String) :
    (extMatchOf f = none → f.seekable = true → f.mode.data.contains 'r' = true →
      f.data.take 2 = [0x1F, 0x8B] → sniff_archive_type f dflt = "gz") ∧
    (∀ nm, f.name = some nm → splitext_ext nm = ".zip" →
      sniff_archive_type f dflt = "zip") ∧
    (extMatchOf f = none → f.seekable = false →
      sniff_archive_type f dflt = dflt) ∧
    (extMatchOf f = none → f.data.take 2 ≠ [0x1F, 0x8B] →
      f.data.take 2 ≠ [0x42, 0x5A] → f.data.take 2 ≠ [0x50, 0x4B] →
      (f.data.drop 257).take 5 ≠ [0x75, 0x73, 0x74, 0x61, 0x72] →
      sniff_archive_type f dflt = dflt) := by
  refine ⟨?_, ?_, ?_, ?_⟩
  · intro hext hseek hmode hmagic
    have hm : 'r' ∈ f.mode.data := by simpa using hmode
    simp [sniff_archive_type, hext, hseek, hm, hmagic]
  · intro nm hnm hzip
    have hext : extMatchOf f = some "zip" := by
      simp only [extMatchOf, hnm, hzip]
      decide
    simp [sniff_archive_type, hext]
  · intro hext hseek
    simp [sniff_archive_type, hext, hseek]
  · intro hext h1 h2 h3 h4
    by_cases hseek : f.seekable
    · simp [sniff_archive_type, hext, hseek, h1, h2, h3, h4]
    · simp [sniff_archive_type, hext, hseek]

/-- Witness for C7: the three amended detection rules applied at
concrete streams — a gzip-magic stream with an unrecognized name, a
`".zip"`-named stream with no readable bytes, and an unrecognized
stream with no hint. -/
theorem sniff_detection_rules_witness :
    sniff_archive_type
        { name := some "x.bin", mode := "rb", seekable := true,
          data := [0x1F, 0x8B, 0x08] } "tar" = "gz" ∧
    sniff_archive_type
        { name := some "x.zip", mode := "", seekable := false,
          data := [] } "tar" = "zip" ∧
    sniff_archive_type
        { name := none, mode := "rb", seekable := true,
          data := [1, 2, 3] } "tar" = "tar" := by
  refine ⟨?_, ?_, ?_⟩
  · exact (sniff_detection_rules
      { name := some "x.bin", mode := "rb", seekable := true,
        data := [0x1F, 0x8B, 0x08] } "tar").1 (by decide) rfl (by decide)
      (by decide)
  · exact ((sniff_detection_rules
      { name := some "x.zip", mode := "", seekable := false,
        data := [] } "tar").2).1 "x.zip" rfl (by decide)
  · exact (((sniff_detection_rules
      { name := none, mode := "rb", seekable := true,
        data := [1, 2, 3] } "tar").2).2).2 (by decide) (by decide) (by decide)
      (by decide) (by decide)

theorem leadsList_false_of_shorter (p q : FPath) (h : q.length < p.length) :
    leadsList p q = false := by
  cases hc : leadsList p q with
  | false => rfl
  | true =>
      rcases (leadsList_iff p q).1 hc with ⟨r, rfl⟩
      rw [List.length_append] at h
      omega

theorem init_ok_fs {inner : Option String} {arg : PyArg} {srm : Bool}
    {outer : FPath} {st : TmpDirSt} (fs0 : List FPath)
    (hok : (tmpdir_init inner arg srm outer).2 = .ok st) :
    applyOps fs0 (tmpdir_init inner arg srm outer).1
      = fs0 ++ [outer, outer ++ [defaultInner inner]] ∧
    st.path = outer ++ [defaultInner inner] ∧ st.outer = outer ∧
    st.closed = false := by
  cases arg with
  | pyNone => simp [tmpdir_init] at hok
  | pyFalse => simp [tmpdir_init] at hok
  | pyStr s =>
      by_cases hv : s ∈ valid_deletions
      · have hv4 : s = "secure" ∨ s = "attempt-secure" ∨ s = "pseudo-secure"
            ∨ s = "not-secure" := by simpa [valid_deletions] using hv
        rcases hv4 with rfl | rfl | rfl | rfl
        · cases srm with
          | true =>
              simp [tmpdir_init, valid_deletions] at hok
              subst hok
              simp [tmpdir_init, valid_deletions, applyOps, applyFsOp]
          | false =>
              simp [tmpdir_init, valid_deletions] at hok
        · cases srm with
          | true =>
              simp [tmpdir_init, valid_deletions] at hok
              subst hok
              simp [tmpdir_init, valid_deletions, applyOps, applyFsOp]
          | false =>
              simp [tmpdir_init, valid_deletions] at hok
              subst hok
              simp [tmpdir_init, valid_deletions, applyOps, applyFsOp]
        · simp [tmpdir_init, valid_deletions] at hok
          subst hok
          simp [tmpdir_init, valid_deletions, applyOps, applyFsOp]
        · simp [tmpdir_init, valid_deletions] at hok
          subst hok
          simp [tmpdir_init, valid_deletions, applyOps, applyFsOp]
      · simp [tmpdir_init, hv] at hok

theorem wipe_mem {fs : List FPath} {src tmpF souter : FPath} {leaf : String}
    {q : FPath}
    (hq : q ∈ ((((fs ++ [tmpF]).map
        (fun r => if leadsList src r
          then (tmpF ++ [leaf]) ++ r.drop src.length else r)).filter
        (fun r => !leadsList tmpF r)).filter
        (fun r => !leadsList souter r))) :
    leadsList src q = false ∧ leadsList tmpF q = false ∧
    leadsList souter q = false := by
  rcases List.mem_filter.1 hq with ⟨hq2, h3⟩
  rcases List.mem_filter.1 hq2 with ⟨hq1, h2⟩
  have h2f : leadsList tmpF q = false := by
    cases h : leadsList tmpF q with
    | false => rfl
    | true => rw [h] at h2; simp at h2
  have h3f : leadsList souter q = false := by
    cases h : leadsList souter q with
    | false => rfl
    | true => rw [h] at h3; simp at h3
  rcases List.mem_map.1 hq1 with ⟨r, _, hr⟩
  cases hls : leadsList src r with
  | true =>
      rw [hls, if_pos rfl] at hr
      exfalso
      have : leadsList tmpF q = true := by
        rw [← hr, List.append_assoc]
        exact leadsList_append_self tmpF ([leaf] ++ r.drop src.length)
      rw [this] at h2f
      exact Bool.true_eq_false.mp h2f
  | false =>
      rw [hls, if_neg (by simp)] at hr
      subst hr
      exact ⟨hls, h2f, h3f⟩

theorem close_open_fs (st : TmpDirSt) (tmpF : FPath) (leaf : String)
    (fs1 : List FPath) (hopen : st.closed = false) :
    ((tmpdir_close st tmpF leaf).1).path = tmpF ++ [leaf] ∧
    ∀ q ∈ applyOps fs1 (tmpdir_close st tmpF leaf).2,
      leadsList st.path q = false ∧ leadsList tmpF q = false ∧
      leadsList st.outer q = false := by
  constructor
  · simp [tmpdir_close, hopen]
  · intro q hq
    by_cases hd1 : st.deletion = ""
    · simp only [tmpdir_close, hopen, Bool.false_eq_true, if_false, hd1,
        if_true, applyOps, List.foldl, applyFsOp] at hq
      exact wipe_mem hq
    · by_cases hd2 : st.deletion = "pseudo-secure"
      · simp only [tmpdir_close, hopen, Bool.false_eq_true, if_false, hd1,
          hd2, if_true, applyOps, List.foldl, applyFsOp] at hq
        exact wipe_mem hq
      · simp only [tmpdir_close, hopen, Bool.false_eq_true, if_false, hd1,
          hd2, applyOps, List.foldl, applyFsOp] at hq
        exact wipe_mem hq

/-- C3: for every successful construction under any of the four
deletion policies (the only constructions that return at all), the
sandbox root exists and is empty immediately after the constructor's
operations are applied to a filesystem in which the fresh outer
directory was really fresh; and after `close()`s operations are
applied, neither the (relocated) root path of the closed instance nor
anything at or below the original root path exists — for every policy,
since all three deletion branches of `close` remove both relocation
targets wholesale. -/
theorem storage_iff_open (inner : Option String) (policy : PyArg) (srm : Bool)
    (outer tmpF : FPath) (leaf : String) (fs0 : List FPath) (st : TmpDirSt)
    (hok : (tmpdir_init inner policy srm outer).2 = .ok st)
    (hfresh : ∀ q ∈ fs0, leadsList outer q = false) :
    st.path ∈ applyOps fs0 (tmpdir_init inner policy srm outer).1 ∧
    (∀ q ∈ applyOps fs0 (tmpdir_init inner policy srm outer).1,
        strictlyUnder st.path q = false) ∧
    ((tmpdir_close st tmpF leaf).1).path
        ∉ applyOps (applyOps fs0 (tmpdir_init inner policy srm outer).1)
            (tmpdir_close st tmpF leaf).2 ∧
    (∀ q ∈ applyOps (applyOps fs0 (tmpdir_init inner policy srm outer).1)
        (tmpdir_close st tmpF leaf).2, leadsList st.path q = false) := by
  obtain ⟨hfs1, hpath, houter, hclosed⟩ := init_ok_fs fs0 hok
  obtain ⟨hnew, hmem⟩ :=
    close_open_fs st tmpF leaf
      (applyOps fs0 (tmpdir_init inner policy srm outer).1) hclosed
  refine ⟨?_, ?_, ?_, ?_⟩
  · rw [hfs1, hpath]
    simp
  · intro q hq
    rw [hfs1] at hq
    rcases List.mem_append.1 hq with h | h
    · cases hsu : strictlyUnder st.path q with
      | false => rfl
      | true =>
          exfalso
          have h1 : leadsList st.path q = true := by
            have := hsu
            simp only [strictlyUnder, Bool.and_eq_true] at this
            exact this.1
          have h2 : leadsList outer st.path = true := by
            rw [hpath]
            exact leadsList_append_self outer [defaultInner inner]
          have h3 : leadsList outer q = true := leadsList_trans h2 h1
          rw [hfresh q h] at h3
          exact Bool.false_eq_true.mp h3
    · simp only [List.mem_cons, List.mem_singleton, List.not_mem_nil,
        or_false] at h
      rcases h with rfl | rfl
      · have hshort : leadsList st.path q = false := by
          apply leadsList_false_of_shorter
          rw [hpath]
          simp
        simp [strictlyUnder, hshort]
      · rw [← hpath]
        simp [strictlyUnder]
  · intro hmem2
    have := (hmem _ hmem2).2.1
    rw [hnew] at this
    rw [leadsList_append_self tmpF [leaf]] at this
    exact Bool.true_eq_false.mp this
  · intro q hq
    exact (hmem q hq).1

/-- Witness for C3: a concrete `"not-secure"` construction on an empty
filesystem, closed into the fresh location `/t/r`. -/
theorem storage_iff_open_witness :
    (tmpdir_init none (.pyStr "not-secure") false ["o"]).2
      = .ok { closed := false, deletion := "not-secure", outer := ["o"],
              innerName := "tmp", path := ["o", "tmp"] } ∧
    (["o", "tmp"] : FPath)
      ∈ applyOps [] (tmpdir_init none (.pyStr "not-secure") false ["o"]).1 ∧
    (∀ q ∈ applyOps [] (tmpdir_init none (.pyStr "not-secure") false ["o"]).1,
        strictlyUnder ["o", "tmp"] q = false) ∧
    ((tmpdir_close
        { closed := false, deletion := "not-secure", outer := ["o"],
          innerName := "tmp", path := ["o", "tmp"] } ["t"] "r").1).path
      ∉ applyOps
          (applyOps [] (tmpdir_init none (.pyStr "not-secure") false ["o"]).1)
          (tmpdir_close
            { closed := false, deletion := "not-secure", outer := ["o"],
              innerName := "tmp", path := ["o", "tmp"] } ["t"] "r").2 ∧
    (∀ q ∈ applyOps
          (applyOps [] (tmpdir_init none (.pyStr "not-secure") false ["o"]).1)
          (tmpdir_close
            { closed := false, deletion := "not-secure", outer := ["o"],
              innerName := "tmp", path := ["o", "tmp"] } ["t"] "r").2,
        leadsList ["o", "tmp"] q = false) := by
  have h := storage_iff_open none (.pyStr "not-secure") false ["o"] ["t"] "r"
    []
    { closed := false, deletion := "not-secure", outer := ["o"],
      innerName := "tmp", path := ["o", "tmp"] }
    rfl (by simp)
  exact ⟨rfl, h.1, h.2.1, h.2.2.1, h.2.2.2⟩

theorem writesTo_append (p : FPath) (xs ys : List WipeOp) :
    writesTo p (xs ++ ys) = writesTo p xs + writesTo p ys := by
  induction xs with
  | nil => simp [writesTo]
  | cons a rest ih =>
      cases a <;> simp [writesTo, ih] <;> omega

theorem writesTo_zero {p : FPath} {ops : List WipeOp}
    (h : ∀ r k, WipeOp.write r k ∈ ops → r ≠ p) : writesTo p ops = 0 := by
  induction ops with
  | nil => rfl
  | cons a rest ih =>
      cases a with
      | write r k =>
          have hr : r ≠ p := h r k (by simp)
          simp [writesTo, hr, ih (fun r2 k2 hm => h r2 k2 (by simp [hm]))]
      | flush q => exact ih (fun r2 k2 hm => h r2 k2 (by simp [hm]))
      | fsync q => exact ih (fun r2 k2 hm => h r2 k2 (by simp [hm]))
      | rename s d => exact ih (fun r2 k2 hm => h r2 k2 (by simp [hm]))
      | remove q => exact ih (fun r2 k2 hm => h r2 k2 (by simp [hm]))
      | rmdir q => exact ih (fun r2 k2 hm => h r2 k2 (by simp [hm]))
      | rmtreeTop q => exact ih (fun r2 k2 hm => h r2 k2 (by simp [hm]))

theorem chunkOps_props (p : FPath) (L : Nat) :
    chunkShaped (chunkOps p L) = true ∧ sumWrites (chunkOps p L) = L ∧
    (∀ q, writesTo q (chunkOps p L) = if q = p then L else 0) ∧
    (∀ op ∈ chunkOps p L, isOverwriteOp op = true ∧
      ∀ r k, op = WipeOp.write r k → r = p) := by
  induction L using Nat.strong_induction_on with
  | _ L ih =>
      rw [chunkOps]
      by_cases h : L = 0
      · subst h
        simp [chunkShaped, sumWrites, writesTo]
      · simp only [h, if_false]
        have hlt : L - min L 1024 < L := by omega
        obtain ⟨ih1, ih2, ih3, ih4⟩ := ih _ hlt
        refine ⟨?_, ?_, ?_, ?_⟩
        · simp only [chunkShaped, ih1, Bool.and_true, beq_self_eq_true]
          simp only [decide_eq_true_eq, Bool.and_eq_true, and_true]
          omega
        · simp only [sumWrites, ih2]
          omega
        · intro q
          by_cases hq : q = p
          · have h3 := ih3 q
            rw [if_pos hq] at h3
            rw [if_pos hq]
            simp only [writesTo, if_pos hq.symm, h3]
            omega
          · have hpq : ¬ p = q := fun he => hq he.symm
            simp [writesTo, hpq, hq, ih3]
        · intro op hop
          simp only [List.mem_cons] at hop
          rcases hop with rfl | rfl | rfl | hop
          · exact ⟨rfl, fun r k he => by cases he; rfl⟩
          · exact ⟨rfl, fun r k he => by cases he⟩
          · exact ⟨rfl, fun r k he => by cases he⟩
          · exact ih4 op hop

theorem chunkShaped_append : ∀ xs, chunkShaped xs = true →
    ∀ ys, chunkShaped ys = true → chunkShaped (xs ++ ys) = true := by
  intro xs
  induction xs using chunkShaped.induct with
  | case1 => intro _ ys hy; simpa
  | case2 p n q r rest ih =>
      intro hx ys hy
      simp only [chunkShaped, Bool.and_eq_true] at hx
      obtain ⟨⟨⟨⟨h1, h2⟩, h3⟩, h4⟩, h5⟩ := hx
      simp only [List.cons_append, chunkShaped, h1, h2, h3, h4,
        Bool.and_true, Bool.true_and]
      simpa using ih h5 ys hy
  | case3 t h0 hpat =>
      intro hx ys hy
      exfalso
      rw [chunkShaped.eq_def] at hx
      split at hx
      · exact h0 rfl
      · exact hpat _ _ _ _ _ rfl
      · exact Bool.false_eq_true.mp hx

theorem phase1Children_shape_of (p : FPath) (ds : List (String × FsTree))
    (hm : ∀ x ∈ ds, ∀ p2 : FPath, ∀ op ∈ phase1 p2 x.2,
      isOverwriteOp op = true ∧
      ∀ r k, op = WipeOp.write r k → ∃ y w, r = p2 ++ y :: w) :
    ∀ op ∈ phase1Children p ds,
      isOverwriteOp op = true ∧
      ∀ r k, op = WipeOp.write r k →
        ∃ x y w, r = p ++ x :: y :: w ∧ x ∈ ds.map Prod.fst := by
  induction ds with
  | nil => intro op hop; rw [phase1Children] at hop; cases hop
  | cons head rest ihl =>
      intro op hop
      rw [phase1Children] at hop
      rcases List.mem_append.1 hop with h1 | h2
      · obtain ⟨hov, hsh⟩ := hm head (by simp) (p ++ [head.1]) op h1
        refine ⟨hov, fun r k he => ?_⟩
        rcases hsh r k he with ⟨y, w, hw⟩
        exact ⟨head.1, y, w, by simp [hw], by simp⟩
      · obtain ⟨hov, hsh⟩ := ihl (fun x hx => hm x (by simp [hx])) op h2
        refine ⟨hov, fun r k he => ?_⟩
        rcases hsh r k he with ⟨x, y, w, hw, hmem⟩
        exact ⟨x, y, w, hw, by simp [hmem]⟩

theorem phase1_ops_shape (t : FsTree) : ∀ p : FPath, ∀ op ∈ phase1 p t,
    isOverwriteOp op = true ∧
    ∀ r k, op = WipeOp.write r k → ∃ y w, r = p ++ y :: w := by
  induction t using fsTree_strong_ind with
  | _ ds fls ihm =>
      intro p op hop
      rw [phase1] at hop
      rcases List.mem_append.1 hop with hf | hc
      · rcases List.mem_flatten.1 hf with ⟨l, hl, hopl⟩
        rcases List.mem_map.1 hl with ⟨nf, _, rfl⟩
        obtain ⟨_, _, _, h4⟩ := chunkOps_props (p ++ [nf.1]) nf.2.length
        obtain ⟨hov, hpath⟩ := h4 op hopl
        refine ⟨hov, fun r k he => ?_⟩
        exact ⟨nf.1, [], by simp [hpath r k he]⟩
      · obtain ⟨hov, hsh⟩ := phase1Children_shape_of p ds ihm op hc
        refine ⟨hov, fun r k he => ?_⟩
        rcases hsh r k he with ⟨x, y, w, hw, _⟩
        exact ⟨x, y :: w, hw⟩

theorem phase1Children_shape (p : FPath) (ds : List (String × FsTree)) :
    ∀ op ∈ phase1Children p ds,
      isOverwriteOp op = true ∧
      ∀ r k, op = WipeOp.write r k →
        ∃ x y w, r = p ++ x :: y :: w ∧ x ∈ ds.map Prod.fst :=
  phase1Children_shape_of p ds (fun x _ => phase1_ops_shape x.2)

theorem phase1_chunkShaped (t : FsTree) : ∀ p : FPath,
    chunkShaped (phase1 p t) = true := by
  induction t using fsTree_strong_ind with
  | _ ds fls ihm =>
      intro p
      rw [phase1]
      apply chunkShaped_append
      · clear ihm
        induction fls with
        | nil => rfl
        | cons nf rest ihf =>
            simp only [List.map_cons, List.flatten_cons]
            exact chunkShaped_append _ (chunkOps_props (p ++ [nf.1])
              nf.2.length).1 _ ihf
      · induction ds with
        | nil => rfl
        | cons head rest ihd =>
            rw [phase1Children]
            exact chunkShaped_append _ (ihm head (by simp) (p ++ [head.1])) _
              (ihd (fun x hx => ihm x (by simp [hx])))

theorem fpath_append_cancel {p a b : FPath} (h : p ++ a = p ++ b) : a = b := by
  simpa using h

theorem lookup_mem_keys {α β : Type} [BEq α] [LawfulBEq α]
    {l : List (α × β)} {a : α} {c : β} (h : l.lookup a = some c) :
    a ∈ l.map Prod.fst := by
  induction l with
  | nil => cases h
  | cons head rest ih =>
      rw [List.lookup] at h
      by_cases he : a = head.1
      · simp [he]
      · have hb : (a == head.1) = false := beq_eq_false_iff_ne.2 he
        rw [hb] at h
        simp [ih h]

theorem files_flatten_writes_zero (p target : FPath)
    (fls : List (String × List Nat))
    (h : ∀ nf ∈ fls, p ++ [nf.1] ≠ target) :
    writesTo target
      ((fls.map fun nf => chunkOps (p ++ [nf.1]) nf.2.length).flatten) = 0 := by
  apply writesTo_zero
  intro r k hm
  rcases List.mem_flatten.1 hm with ⟨l, hl, hopl⟩
  rcases List.mem_map.1 hl with ⟨nf, hnf, rfl⟩
  obtain ⟨_, _, _, h4⟩ := chunkOps_props (p ++ [nf.1]) nf.2.length
  have hr := (h4 _ hopl).2 r k rfl
  rw [hr]
  exact h nf hnf

theorem files_flatten_writes (p : FPath) (n : String) (c : List Nat) :
    ∀ fls : List (String × List Nat), (fls.map Prod.fst).Nodup →
      fls.lookup n = some c →
      writesTo (p ++ [n])
        ((fls.map fun nf => chunkOps (p ++ [nf.1]) nf.2.length).flatten)
        = c.length := by
  intro fls
  induction fls with
  | nil => intro _ h; cases h
  | cons nf rest ih =>
      intro hnd hlk
      simp only [List.map_cons, List.flatten_cons]
      rw [writesTo_append]
      rw [List.lookup] at hlk
      by_cases he : n = nf.1
      · have hb : (n == nf.1) = true := beq_iff_eq.2 he
        rw [hb] at hlk
        injection hlk with hc
        obtain ⟨_, _, h3, _⟩ := chunkOps_props (p ++ [nf.1]) nf.2.length
        have hhead := h3 (p ++ [n])
        rw [if_pos (by rw [he])] at hhead
        have hrest : writesTo (p ++ [n])
            ((rest.map fun x => chunkOps (p ++ [x.1]) x.2.length).flatten)
              = 0 := by
          apply files_flatten_writes_zero
          intro x hx heq
          have hx1 : x.1 = n := by
            have := fpath_append_cancel heq
            simpa using this
          simp only [List.map_cons, List.nodup_cons] at hnd
          exact hnd.1 (by rw [← he, ← hx1]; exact List.mem_map_of_mem Prod.fst hx)
        rw [hhead, hrest, hc]
        omega
      · have hb : (n == nf.1) = false := beq_eq_false_iff_ne.2 he
        rw [hb] at hlk
        obtain ⟨_, _, h3, _⟩ := chunkOps_props (p ++ [nf.1]) nf.2.length
        have hhead := h3 (p ++ [n])
        rw [if_neg (fun he2 => he (by simpa using fpath_append_cancel he2))]
          at hhead
        rw [hhead]
        simp only [List.map_cons, List.nodup_cons] at hnd
        rw [ih hnd.2 hlk]
        omega

theorem phase1Children_writes_zero_short (p : FPath) (n : String)
    (ds : List (String × FsTree)) :
    writesTo (p ++ [n]) (phase1Children p ds) = 0 := by
  apply writesTo_zero
  intro r k hm heq
  obtain ⟨_, hsh⟩ := phase1Children_shape p ds _ hm
  rcases hsh r k rfl with ⟨x, y, w, hw, _⟩
  rw [hw] at heq
  have := fpath_append_cancel heq
  simp at this

theorem phase1Children_writes_zero_name (p : FPath) (n : String) (w0 : FPath)
    (ds : List (String × FsTree)) (h : ∀ x ∈ ds.map Prod.fst, x ≠ n) :
    writesTo (p ++ n :: w0) (phase1Children p ds) = 0 := by
  apply writesTo_zero
  intro r k hm heq
  obtain ⟨_, hsh⟩ := phase1Children_shape p ds _ hm
  rcases hsh r k rfl with ⟨x, y, w, hw, hmem⟩
  rw [hw] at heq
  have h2 := fpath_append_cancel heq
  have hx : x = n := by
    injection h2
  exact h x hmem hx

theorem wellFormedChildren_parts {head : String × FsTree}
    {rest : List (String × FsTree)}
    (h : wellFormedChildren (head :: rest) = true) :
    wellFormed head.2 = true ∧ wellFormedChildren rest = true := by
  rw [wellFormedChildren] at h
  simpa using h

theorem phase1Children_file_writes_of (p : FPath) (n : String) (q2 : FPath)
    (c : List Nat) :
    ∀ ds : List (String × FsTree),
      (∀ x ∈ ds, ∀ p3 : FPath, ∀ q3 c3, wellFormed x.2 = true →
        fileAtPath x.2 q3 = some c3 →
        writesTo (p3 ++ q3) (phase1 p3 x.2) = c3.length) →
      (ds.map Prod.fst).Nodup → wellFormedChildren ds = true →
      ∀ c2, childNamed ds n = some c2 → fileAtPath c2 q2 = some c →
      writesTo (p ++ n :: q2) (phase1Children p ds) = c.length := by
  intro ds
  induction ds with
  | nil => intro _ _ _ c2 hcn; rw [childNamed] at hcn; cases hcn
  | cons head rest ihd =>
      intro hm hnd hwfc c2 hcn hfap
      rw [phase1Children, writesTo_append]
      rw [childNamed] at hcn
      obtain ⟨hwfh, hwfr⟩ := wellFormedChildren_parts hwfc
      by_cases he : head.1 = n
      · rw [if_pos he] at hcn
        injection hcn with hcn
        subst hcn
        have h1 : writesTo ((p ++ [head.1]) ++ q2)
            (phase1 (p ++ [head.1]) head.2) = c.length :=
          hm head (by simp) (p ++ [head.1]) q2 c hwfh hfap
        have hpath : p ++ n :: q2 = (p ++ [head.1]) ++ q2 := by
          simp [he]
        rw [hpath, h1]
        have hrest : writesTo ((p ++ [head.1]) ++ q2)
            (phase1Children p rest) = 0 := by
          have hpath2 : (p ++ [head.1]) ++ q2 = p ++ n :: q2 := hpath.symm
          rw [hpath2]
          apply phase1Children_writes_zero_name
          intro x hx hxn
          simp only [List.map_cons, List.nodup_cons] at hnd
          exact hnd.1 (by rw [he, ← hxn]; exact hx)
        rw [hrest]
        omega
      · rw [if_neg he] at hcn
        have hhead : writesTo (p ++ n :: q2)
            (phase1 (p ++ [head.1]) head.2) = 0 := by
          apply writesTo_zero
          intro r k hmem heq
          obtain ⟨_, hsh⟩ := phase1_ops_shape head.2 (p ++ [head.1]) _ hmem
          rcases hsh r k rfl with ⟨y, w, hw⟩
          rw [hw] at heq
          have h2 : head.1 = n ∧ y :: w = q2 := by simpa using heq
          exact he h2.1
        rw [hhead]
        simp only [List.map_cons, List.nodup_cons] at hnd
        have := ihd (fun x hx => hm x (by simp [hx])) hnd.2 hwfr c2 hcn hfap
        omega

theorem phase1_file_writes (t : FsTree) :
    ∀ (p q : FPath) (c : List Nat), wellFormed t = true →
      fileAtPath t q = some c → writesTo (p ++ q) (phase1 p t) = c.length := by
  induction t using fsTree_strong_ind with
  | _ ds fls ihm =>
      intro p q c hwf hfap
      simp only [wellFormed, Bool.and_eq_true, decide_eq_true_eq] at hwf
      obtain ⟨⟨⟨hgd, hgf⟩, hnd⟩, hwfc⟩ := hwf
      rw [phase1, writesTo_append]
      rcases List.nodup_append.mp hnd with ⟨hndd, hndf, hdisj⟩
      cases q with
      | nil => rw [fileAtPath] at hfap; cases hfap
      | cons n q2 =>
          cases q2 with
          | nil =>
              rw [fileAtPath] at hfap
              have hfl := files_flatten_writes p n c fls hndf hfap
              rw [hfl, phase1Children_writes_zero_short]
              omega
          | cons m rest =>
              rw [fileAtPath] at hfap
              cases hcn : childNamed ds n with
              | none => rw [hcn] at hfap; cases hfap
              | some c2 =>
                  rw [hcn] at hfap
                  have hfl : writesTo (p ++ n :: m :: rest)
                      ((fls.map fun nf =>
                        chunkOps (p ++ [nf.1]) nf.2.length).flatten) = 0 := by
                    apply files_flatten_writes_zero
                    intro nf _ heq
                    have := fpath_append_cancel heq
                    simp at this
                  have hch := phase1Children_file_writes_of p n (m :: rest) c
                    ds (fun x hx p3 q3 c3 hw3 hf3 => ihm x hx p3 q3 c3 hw3 hf3)
                    hndd hwfc c2 hcn hfap
                  rw [hfl, hch]
                  omega

theorem strictlyUnder_le_length {p q : FPath} (h : q.length ≤ p.length) :
    strictlyUnder p q = false := by
  rw [strictlyUnder]
  cases hl : leadsList p q with
  | false => rfl
  | true =>
      rcases (leadsList_iff p q).1 hl with ⟨r, rfl⟩
      rw [List.length_append] at h
      have hr : r = [] := by
        cases r with
        | nil => rfl
        | cons a b => simp at h
      subst hr
      simp

theorem sibling_not_under {p : FPath} {a b : String} {w1 w2 : FPath}
    (h : a ≠ b) : strictlyUnder (p ++ a :: w1) (p ++ b :: w2) = false := by
  rw [strictlyUnder]
  cases hl : leadsList (p ++ a :: w1) (p ++ b :: w2) with
  | false => rfl
  | true =>
      exfalso
      rcases (leadsList_iff _ _).1 hl with ⟨r, hr⟩
      have h2 := fpath_append_cancel (p := p)
        (a := b :: w2) (b := a :: (w1 ++ r)) (by simpa using hr)
      injection h2 with h3
      exact h h3.symm

theorem phase2_fst (nn : FPath → String) (p : FPath)
    (ds : List (String × FsTree)) (fls : List (String × List Nat)) :
    (phase2 nn p (.node ds fls)).1 =
      (phase2Children nn p ds).1
        ++ fls.map (fun nf => WipeOp.rename (p ++ [nf.1])
              (p ++ [nn (p ++ [nf.1]) ++ ".tmp"]))
        ++ ds.map (fun nd => WipeOp.rename (p ++ [nd.1])
              (p ++ [nn (p ++ [nd.1])])) := by
  rw [phase2]

theorem phase2_snd (nn : FPath → String) (p : FPath)
    (ds : List (String × FsTree)) (fls : List (String × List Nat)) :
    (phase2 nn p (.node ds fls)).2 =
      .node (List.zipWith (fun nd c => (nn (p ++ [nd.1]), c)) ds
               (phase2Children nn p ds).2)
            (fls.map (fun nf => (nn (p ++ [nf.1]) ++ ".tmp", nf.2))) := by
  rw [phase2]

theorem phase2Children_cons (nn : FPath → String) (p : FPath)
    (head : String × FsTree) (rest : List (String × FsTree)) :
    (phase2Children nn p (head :: rest)).1
      = (phase2 nn (p ++ [head.1]) head.2).1
          ++ (phase2Children nn p rest).1 ∧
    (phase2Children nn p (head :: rest)).2
      = (phase2 nn (p ++ [head.1]) head.2).2
          :: (phase2Children nn p rest).2 := by
  constructor <;> rw [phase2Children]

theorem phase2Children_shape_of (nn : FPath → String) (p : FPath)
    (ds : List (String × FsTree))
    (hm : ∀ x ∈ ds, ∀ p2 : FPath, ∀ op ∈ (phase2 nn p2 x.2).1, ∃ u y,
      op = WipeOp.rename (p2 ++ u ++ [y])
            (p2 ++ u ++ [nn (p2 ++ u ++ [y]) ++ ".tmp"]) ∨
      op = WipeOp.rename (p2 ++ u ++ [y])
            (p2 ++ u ++ [nn (p2 ++ u ++ [y])])) :
    ∀ op ∈ (phase2Children nn p ds).1, ∃ x0 w y,
      x0 ∈ ds.map Prod.fst ∧
      (op = WipeOp.rename (p ++ (x0 :: w) ++ [y])
            (p ++ (x0 :: w) ++ [nn (p ++ (x0 :: w) ++ [y]) ++ ".tmp"]) ∨
       op = WipeOp.rename (p ++ (x0 :: w) ++ [y])
            (p ++ (x0 :: w) ++ [nn (p ++ (x0 :: w) ++ [y])])) := by
  induction ds with
  | nil => intro op hop; rw [phase2Children] at hop; cases hop
  | cons head rest ihl =>
      intro op hop
      rw [(phase2Children_cons nn p head rest).1] at hop
      rcases List.mem_append.1 hop with h1 | h2
      · rcases hm head (by simp) (p ++ [head.1]) op h1 with ⟨u, y, hc⟩
        refine ⟨head.1, u, y, by simp, ?_⟩
        have hassoc : (p ++ [head.1]) ++ u = p ++ (head.1 :: u) := by simp
        rw [hassoc] at hc
        exact hc
      · rcases ihl (fun x hx => hm x (by simp [hx])) op h2 with
          ⟨x0, w, y, hmem, hc⟩
        exact ⟨x0, w, y, by simp [hmem], hc⟩

theorem phase2_shape (t : FsTree) : ∀ (nn : FPath → String) (p : FPath),
    ∀ op ∈ (phase2 nn p t).1, ∃ u y,
      op = WipeOp.rename (p ++ u ++ [y])
            (p ++ u ++ [nn (p ++ u ++ [y]) ++ ".tmp"]) ∨
      op = WipeOp.rename (p ++ u ++ [y])
            (p ++ u ++ [nn (p ++ u ++ [y])]) := by
  induction t using fsTree_strong_ind with
  | _ ds fls ihm =>
      intro nn p op hop
      rw [phase2_fst] at hop
      rcases List.mem_append.1 hop with hcf | hd
      · rcases List.mem_append.1 hcf with hc | hf
        · rcases phase2Children_shape_of nn p ds
            (fun x hx => ihm x hx nn) op hc with ⟨x0, w, y, _, hc2⟩
          exact ⟨x0 :: w, y, hc2⟩
        · rcases List.mem_map.1 hf with ⟨nf, _, rfl⟩
          exact ⟨[], nf.1, Or.inl (by simp)⟩
      · rcases List.mem_map.1 hd with ⟨nd, _, rfl⟩
        exact ⟨[], nd.1, Or.inr (by simp)⟩

theorem phase2Children_shape (nn : FPath → String) (p : FPath)
    (ds : List (String × FsTree)) :
    ∀ op ∈ (phase2Children nn p ds).1, ∃ x0 w y,
      x0 ∈ ds.map Prod.fst ∧
      (op = WipeOp.rename (p ++ (x0 :: w) ++ [y])
            (p ++ (x0 :: w) ++ [nn (p ++ (x0 :: w) ++ [y]) ++ ".tmp"]) ∨
       op = WipeOp.rename (p ++ (x0 :: w) ++ [y])
            (p ++ (x0 :: w) ++ [nn (p ++ (x0 :: w) ++ [y])])) :=
  phase2Children_shape_of nn p ds (fun x _ => phase2_shape x.2 nn)

theorem phase2Children_len_of (nn : FPath → String) (p : FPath)
    (ds : List (String × FsTree))
    (hm : ∀ x ∈ ds, ∀ p2 : FPath,
      ((phase2 nn p2 x.2).1).length = entryCount x.2) :
    ((phase2Children nn p ds).1).length + ds.length
      = entryCountChildren ds := by
  induction ds with
  | nil => rw [phase2Children, entryCountChildren]; rfl
  | cons head rest ihl =>
      rw [(phase2Children_cons nn p head rest).1, entryCountChildren,
        List.length_append, hm head (by simp) (p ++ [head.1])]
      have hr := ihl (fun x hx => hm x (by simp [hx]))
      simp only [List.length_cons]
      omega

theorem phase2_len (t : FsTree) : ∀ (nn : FPath → String) (p : FPath),
    ((phase2 nn p t).1).length = entryCount t := by
  induction t using fsTree_strong_ind with
  | _ ds fls ihm =>
      intro nn p
      have hc := phase2Children_len_of nn p ds (fun x hx => ihm x hx nn)
      rw [phase2_fst, entryCount, List.length_append, List.length_append]
      simp only [List.length_map]
      omega

theorem phase2_entryCount (t : FsTree) : ∀ (nn : FPath → String) (p : FPath),
    entryCount (phase2 nn p t).2 = entryCount t := by
  induction t using fsTree_strong_ind with
  | _ ds fls ihm =>
      intro nn p
      rw [phase2_snd, entryCount, entryCount]
      have hz : ∀ (rest : List (String × FsTree)),
          (∀ x ∈ rest, ∀ p2 : FPath, entryCount (phase2 nn p2 x.2).2
            = entryCount x.2) →
          entryCountChildren (List.zipWith (fun nd c => (nn (p ++ [nd.1]), c))
            rest (phase2Children nn p rest).2) = entryCountChildren rest := by
        intro rest
        induction rest with
        | nil => intro _; rfl
        | cons h2 r2 ih2 =>
            intro hm2
            rw [(phase2Children_cons nn p h2 r2).2]
            simp only [List.zipWith_cons_cons]
            rw [entryCountChildren, entryCountChildren,
              hm2 h2 (by simp) (p ++ [h2.1]), ih2 (fun x hx => hm2 x
                (by simp [hx]))]
      rw [hz ds (fun x hx p2 => ihm x hx nn p2)]
      simp

theorem pairwise_all_mem {α : Type} (R : α → α → Prop) (l : List α)
    (h : ∀ a ∈ l, ∀ b ∈ l, R a b) : List.Pairwise R l := by
  induction l with
  | nil => exact List.Pairwise.nil
  | cons x xs ih =>
      refine List.Pairwise.cons (fun b hb => h x (by simp) b (by simp [hb])) ?_
      exact ih (fun a ha b hb => h a (by simp [ha]) b (by simp [hb]))

theorem srcNotAbove_of_src_le {a b : WipeOp}
    (h : ∀ s1 d1 s2 d2, a = WipeOp.rename s1 d1 → b = WipeOp.rename s2 d2 →
      s2.length ≤ s1.length) : srcNotAbove a b :=
  fun s1 d1 s2 d2 ha hb => strictlyUnder_le_length (h s1 d1 s2 d2 ha hb)

theorem phase2Children_pairwise_of (nn : FPath → String) (p : FPath) :
    ∀ ds : List (String × FsTree),
      (∀ x ∈ ds, ∀ p2 : FPath, wellFormed x.2 = true →
        List.Pairwise srcNotAbove (phase2 nn p2 x.2).1) →
      (ds.map Prod.fst).Nodup → wellFormedChildren ds = true →
      List.Pairwise srcNotAbove (phase2Children nn p ds).1 := by
  intro ds
  induction ds with
  | nil =>
      intro _ _ _
      rw [phase2Children]
      exact List.Pairwise.nil
  | cons head rest ihl =>
      intro hm hnd hwfc
      obtain ⟨hwfh, hwfr⟩ := wellFormedChildren_parts hwfc
      simp only [List.map_cons, List.nodup_cons] at hnd
      rw [(phase2Children_cons nn p head rest).1, List.pairwise_append]
      refine ⟨hm head (by simp) (p ++ [head.1]) hwfh,
        ihl (fun x hx => hm x (by simp [hx])) hnd.2 hwfr, ?_⟩
      intro a ha b hb
      intro s1 d1 s2 d2 hae hbe
      rcases phase2_shape head.2 nn (p ++ [head.1]) a ha with ⟨u, y, hc⟩
      rcases phase2Children_shape nn p rest b hb with ⟨x0, w, y2, hm0, hc2⟩
      have hs1 : s1 = p ++ head.1 :: (u ++ [y]) := by
        rcases hc with hc | hc <;>
          (rw [hc] at hae; injection hae with hA hB; rw [← hA]; simp)
      have hs2 : s2 = p ++ x0 :: (w ++ [y2]) := by
        rcases hc2 with hc2 | hc2 <;>
          (rw [hc2] at hbe; injection hbe with hA hB; rw [← hA]; simp)
      rw [hs1, hs2]
      apply sibling_not_under
      intro he
      exact hnd.1 (he ▸ hm0)

theorem phase2_pairwise (t : FsTree) : ∀ (nn : FPath → String) (p : FPath),
    wellFormed t = true → List.Pairwise srcNotAbove (phase2 nn p t).1 := by
  induction t using fsTree_strong_ind with
  | _ ds fls ihm =>
      intro nn p hwf
      simp only [wellFormed, Bool.and_eq_true, decide_eq_true_eq] at hwf
      obtain ⟨⟨⟨hgd, hgf⟩, hnd⟩, hwfc⟩ := hwf
      rcases List.nodup_append.mp hnd with ⟨hndd, _, _⟩
      rw [phase2_fst, List.append_assoc, List.pairwise_append]
      have hlenC : ∀ a ∈ (phase2Children nn p ds).1, ∀ s1 d1,
          a = WipeOp.rename s1 d1 → p.length + 2 ≤ s1.length := by
        intro a ha s1 d1 hae
        rcases phase2Children_shape nn p ds a ha with ⟨x0, w, y2, _, hc2⟩
        rcases hc2 with hc2 | hc2 <;>
          (rw [hc2] at hae; injection hae with hA _; rw [← hA];
           simp only [List.length_append, List.length_cons, List.length_nil];
           omega)
      have hlenFD : ∀ b ∈ (fls.map (fun nf => WipeOp.rename (p ++ [nf.1])
            (p ++ [nn (p ++ [nf.1]) ++ ".tmp"]))
          ++ ds.map (fun nd => WipeOp.rename (p ++ [nd.1])
            (p ++ [nn (p ++ [nd.1])]))), ∀ s2 d2,
          b = WipeOp.rename s2 d2 → s2.length = p.length + 1 := by
        intro b hb s2 d2 hbe
        rcases List.mem_append.1 hb with h | h <;>
          (rcases List.mem_map.1 h with ⟨x, _, rfl⟩;
           injection hbe with hA _; rw [← hA]; simp)
      refine ⟨phase2Children_pairwise_of nn p ds
          (fun x hx p2 hw => ihm x hx nn p2 hw) hndd hwfc, ?_, ?_⟩
      · apply pairwise_all_mem
        intro a ha b hb
        apply srcNotAbove_of_src_le
        intro s1 d1 s2 d2 hae hbe
        rw [hlenFD a ha s1 d1 hae, hlenFD b hb s2 d2 hbe]
      · intro a ha b hb
        apply srcNotAbove_of_src_le
        intro s1 d1 s2 d2 hae hbe
        have := hlenC a ha s1 d1 hae
        rw [hlenFD b hb s2 d2 hbe]
        omega

theorem phase3_node (p : FPath) (ds : List (String × FsTree))
    (fls : List (String × List Nat)) :
    phase3 p (.node ds fls) =
      phase3Children p ds
        ++ fls.map (fun nf => WipeOp.remove (p ++ [nf.1]))
        ++ ds.map (fun nd => WipeOp.rmdir (p ++ [nd.1])) := by
  rw [phase3]

theorem phase3Children_cons (p : FPath) (head : String × FsTree)
    (rest : List (String × FsTree)) :
    phase3Children p (head :: rest)
      = phase3 (p ++ [head.1]) head.2 ++ phase3Children p rest := by
  rw [phase3Children]

theorem sibDirsNodup_parts {ds : List (String × FsTree)}
    {fls : List (String × List Nat)}
    (h : sibDirsNodup (.node ds fls) = true) :
    (ds.map Prod.fst).Nodup ∧ sibDirsNodupChildren ds = true := by
  rw [sibDirsNodup] at h
  simpa using h

theorem sibDirsNodupChildren_parts {head : String × FsTree}
    {rest : List (String × FsTree)}
    (h : sibDirsNodupChildren (head :: rest) = true) :
    sibDirsNodup head.2 = true ∧ sibDirsNodupChildren rest = true := by
  rw [sibDirsNodupChildren] at h
  simpa using h

theorem phase3Children_shape_of (p : FPath) (ds : List (String × FsTree))
    (hm : ∀ x ∈ ds, ∀ p2 : FPath, ∀ op ∈ phase3 p2 x.2, ∃ u y,
      op = WipeOp.remove (p2 ++ u ++ [y]) ∨
      op = WipeOp.rmdir (p2 ++ u ++ [y])) :
    ∀ op ∈ phase3Children p ds, ∃ x0 w y,
      x0 ∈ ds.map Prod.fst ∧
      (op = WipeOp.remove (p ++ (x0 :: w) ++ [y]) ∨
       op = WipeOp.rmdir (p ++ (x0 :: w) ++ [y])) := by
  induction ds with
  | nil => intro op hop; rw [phase3Children] at hop; cases hop
  | cons head rest ihl =>
      intro op hop
      rw [phase3Children_cons] at hop
      rcases List.mem_append.1 hop with h1 | h2
      · rcases hm head (by simp) (p ++ [head.1]) op h1 with ⟨u, y, hc⟩
        refine ⟨head.1, u, y, by simp, ?_⟩
        have hassoc : (p ++ [head.1]) ++ u = p ++ (head.1 :: u) := by simp
        rw [hassoc] at hc
        exact hc
      · rcases ihl (fun x hx => hm x (by simp [hx])) op h2 with
          ⟨x0, w, y, hmem, hc⟩
        exact ⟨x0, w, y, by simp [hmem], hc⟩

theorem phase3_shape (t : FsTree) : ∀ p : FPath, ∀ op ∈ phase3 p t, ∃ u y,
    op = WipeOp.remove (p ++ u ++ [y]) ∨
    op = WipeOp.rmdir (p ++ u ++ [y]) := by
  induction t using fsTree_strong_ind with
  | _ ds fls ihm =>
      intro p op hop
      rw [phase3_node] at hop
      rcases List.mem_append.1 hop with hcf | hd
      · rcases List.mem_append.1 hcf with hc | hf
        · rcases phase3Children_shape_of p ds (fun x hx => ihm x hx) op hc
            with ⟨x0, w, y, _, hc2⟩
          exact ⟨x0 :: w, y, hc2⟩
        · rcases List.mem_map.1 hf with ⟨nf, _, rfl⟩
          exact ⟨[], nf.1, Or.inl (by simp)⟩
      · rcases List.mem_map.1 hd with ⟨nd, _, rfl⟩
        exact ⟨[], nd.1, Or.inr (by simp)⟩

theorem phase3Children_shape (p : FPath) (ds : List (String × FsTree)) :
    ∀ op ∈ phase3Children p ds, ∃ x0 w y,
      x0 ∈ ds.map Prod.fst ∧
      (op = WipeOp.remove (p ++ (x0 :: w) ++ [y]) ∨
       op = WipeOp.rmdir (p ++ (x0 :: w) ++ [y])) :=
  phase3Children_shape_of p ds (fun x _ => phase3_shape x.2)

theorem phase3Children_len_of (p : FPath) (ds : List (String × FsTree))
    (hm : ∀ x ∈ ds, ∀ p2 : FPath, (phase3 p2 x.2).length = entryCount x.2) :
    (phase3Children p ds).length + ds.length = entryCountChildren ds := by
  induction ds with
  | nil => rw [phase3Children, entryCountChildren]; rfl
  | cons head rest ihl =>
      rw [phase3Children_cons, entryCountChildren, List.length_append,
        hm head (by simp) (p ++ [head.1])]
      have hr := ihl (fun x hx => hm x (by simp [hx]))
      simp only [List.length_cons]
      omega

theorem phase3_len (t : FsTree) : ∀ p : FPath,
    (phase3 p t).length = entryCount t := by
  induction t using fsTree_strong_ind with
  | _ ds fls ihm =>
      intro p
      have hc := phase3Children_len_of p ds (fun x hx => ihm x hx)
      rw [phase3_node, entryCount, List.length_append, List.length_append]
      simp only [List.length_map]
      omega

theorem targetNotAbove_of_le {a b : WipeOp}
    (h : ∀ p1 p2, removeTarget a = some p1 → removeTarget b = some p2 →
      p2.length ≤ p1.length) : targetNotAbove a b :=
  fun p1 p2 ha hb => strictlyUnder_le_length (h p1 p2 ha hb)

theorem phase3Children_pairwise_of (p : FPath) :
    ∀ ds : List (String × FsTree),
      (∀ x ∈ ds, ∀ p2 : FPath, sibDirsNodup x.2 = true →
        List.Pairwise targetNotAbove (phase3 p2 x.2)) →
      (ds.map Prod.fst).Nodup → sibDirsNodupChildren ds = true →
      List.Pairwise targetNotAbove (phase3Children p ds) := by
  intro ds
  induction ds with
  | nil =>
      intro _ _ _
      rw [phase3Children]
      exact List.Pairwise.nil
  | cons head rest ihl =>
      intro hm hnd hndc
      obtain ⟨hndh, hndr⟩ := sibDirsNodupChildren_parts hndc
      simp only [List.map_cons, List.nodup_cons] at hnd
      rw [phase3Children_cons, List.pairwise_append]
      refine ⟨hm head (by simp) (p ++ [head.1]) hndh,
        ihl (fun x hx => hm x (by simp [hx])) hnd.2 hndr, ?_⟩
      intro a ha b hb
      intro t1 t2 hae hbe
      rcases phase3_shape head.2 (p ++ [head.1]) a ha with ⟨u, y, hc⟩
      rcases phase3Children_shape p rest b hb with ⟨x0, w, y2, hm0, hc2⟩
      have ht1 : t1 = p ++ head.1 :: (u ++ [y]) := by
        rcases hc with hc | hc <;>
          (rw [hc] at hae; rw [removeTarget] at hae; injection hae with hA;
           rw [← hA]; simp)
      have ht2 : t2 = p ++ x0 :: (w ++ [y2]) := by
        rcases hc2 with hc2 | hc2 <;>
          (rw [hc2] at hbe; rw [removeTarget] at hbe; injection hbe with hA;
           rw [← hA]; simp)
      rw [ht1, ht2]
      apply sibling_not_under
      intro he
      exact hnd.1 (he ▸ hm0)

theorem phase3_pairwise (t : FsTree) : ∀ p : FPath,
    sibDirsNodup t = true → List.Pairwise targetNotAbove (phase3 p t) := by
  induction t using fsTree_strong_ind with
  | _ ds fls ihm =>
      intro p hnd
      obtain ⟨hndd, hndc⟩ := sibDirsNodup_parts hnd
      rw [phase3_node, List.append_assoc, List.pairwise_append]
      have hlenC : ∀ a ∈ phase3Children p ds, ∀ t1,
          removeTarget a = some t1 → p.length + 2 ≤ t1.length := by
        intro a ha t1 hae
        rcases phase3Children_shape p ds a ha with ⟨x0, w, y2, _, hc2⟩
        rcases hc2 with hc2 | hc2 <;>
          (rw [hc2] at hae; rw [removeTarget] at hae; injection hae with hA;
           rw [← hA];
           simp only [List.length_append, List.length_cons, List.length_nil];
           omega)
      have hlenFD : ∀ b ∈ (fls.map (fun nf => WipeOp.remove (p ++ [nf.1]))
          ++ ds.map (fun nd => WipeOp.rmdir (p ++ [nd.1]))), ∀ t2,
          removeTarget b = some t2 → t2.length = p.length + 1 := by
        intro b hb t2 hbe
        rcases List.mem_append.1 hb with h | h <;>
          (rcases List.mem_map.1 h with ⟨x, _, rfl⟩;
           rw [removeTarget] at hbe; injection hbe with hA; rw [← hA]; simp)
      refine ⟨phase3Children_pairwise_of p ds (fun x hx => ihm x hx)
          hndd hndc, ?_, ?_⟩
      · apply pairwise_all_mem
        intro a ha b hb
        apply targetNotAbove_of_le
        intro t1 t2 hae hbe
        rw [hlenFD a ha t1 hae, hlenFD b hb t2 hbe]
      · intro a ha b hb
        apply targetNotAbove_of_le
        intro t1 t2 hae hbe
        have := hlenC a ha t1 hae
        rw [hlenFD b hb t2 hbe]
        omega

theorem getD_mem_or_eq (l : List Char) (d : Char) (i : Nat) :
    l.getD i d ∈ l ∨ l.getD i d = d := by
  induction l generalizing i with
  | nil => right; rw [List.getD_nil]
  | cons x xs ih =>
      cases i with
      | zero => left; rw [List.getD_cons_zero]; simp
      | succ n =>
          rw [List.getD_cons_succ]
          rcases ih n with h | h
          · left; exact List.mem_cons_of_mem x h
          · right; exact h

theorem getD_mem_of_mem {l : List Char} {d : Char} (hd : d ∈ l) (i : Nat) :
    l.getD i d ∈ l := by
  rcases getD_mem_or_eq l d i with h | h
  · exact h
  · rw [h]; exact hd

/-- C4: on every well-formed directory tree (and whenever the random
names drawn for the rename phase leave sibling directory names
distinct, as the code assumes), `pseudosecure_delete_directory` is
exactly three phases in order followed by the removal of the root:
(1) only overwrite traffic, shaped as write ≤ 1024 zero bytes, then
flush, then fsync, chunk after chunk, writing exactly each regular
file's full byte length to that file's path; (2) only renames, one per
file and directory (count = entry count), each renaming an entry in
place to the drawn random name (files with a `".tmp"` suffix),
bottom-up: no later rename touches a path strictly below an
already-renamed source; (3) only removals, one per entry of the renamed
tree, bottom-up with files of each directory removed before the
directory itself, and finally the root.  The random names drawn by
`rand_name` have length 8 over the alphanumeric-plus-underscore
alphabet. -/
theorem pseudosecure_three_phase_wipe (nn : FPath → String) (root : FPath)
    (t : FsTree) (hwf : wellFormed t = true)
    (hnd : sibDirsNodup (phase2 nn root t).2 = true) :
    pseudosecure_delete_directory nn root t
      = phase1 root t ++ (phase2 nn root t).1
          ++ phase3 root (phase2 nn root t).2 ++ [WipeOp.rmtreeTop root] ∧
    (∀ op ∈ phase1 root t, isOverwriteOp op = true) ∧
    chunkShaped (phase1 root t) = true ∧
    (∀ q c, fileAtPath t q = some c →
        writesTo (root ++ q) (phase1 root t) = c.length) ∧
    (∀ op ∈ (phase2 nn root t).1, isRenameOp op = true) ∧
    (∀ op ∈ (phase2 nn root t).1, ∃ u y,
        op = WipeOp.rename (root ++ u ++ [y])
          (root ++ u ++ [nn (root ++ u ++ [y]) ++ ".tmp"]) ∨
        op = WipeOp.rename (root ++ u ++ [y])
          (root ++ u ++ [nn (root ++ u ++ [y])])) ∧
    ((phase2 nn root t).1).length = entryCount t ∧
    List.Pairwise srcNotAbove (phase2 nn root t).1 ∧
    (∀ op ∈ phase3 root (phase2 nn root t).2, isRemoveOp op = true) ∧
    (phase3 root (phase2 nn root t).2).length = entryCount t ∧
    List.Pairwise targetNotAbove (phase3 root (phase2 nn root t).2) ∧
    (∀ pick : Nat → Nat, (rand_name pick 8).length = 8 ∧
        ∀ ch ∈ (rand_name pick 8).data, ch ∈ name_chars) := by
  refine ⟨rfl, ?_, phase1_chunkShaped t root, ?_, ?_, phase2_shape t nn root,
    phase2_len t nn root, phase2_pairwise t nn root hwf, ?_,
    ?_, phase3_pairwise _ root hnd, ?_⟩
  · intro op hop
    exact (phase1_ops_shape t root op hop).1
  · intro q c hf
    exact phase1_file_writes t root q c hwf hf
  · intro op hop
    rcases phase2_shape t nn root op hop with ⟨u, y, hc⟩
    rcases hc with hc | hc <;> rw [hc] <;> rfl
  · intro op hop
    rcases phase3_shape _ root op hop with ⟨u, y, hc⟩
    rcases hc with hc | hc <;> rw [hc] <;> rfl
  · rw [phase3_len, phase2_entryCount]
  · intro pick
    constructor
    · rfl
    · intro ch hch
      simp only [rand_name, List.mem_map] at hch
      rcases hch with ⟨i, _, rfl⟩
      exact getD_mem_of_mem (by decide) (pick i % name_chars.length)

/-- Witness for C4: the wipe of a concrete two-level tree with a
concrete collision-free name supply. -/
theorem pseudosecure_three_phase_wipe_witness :
    wellFormed (.node [("a", .node [("c", emptyDir)] [("b.txt", [104, 105])]),
        ("z", emptyDir)] [("f", [1, 2, 3])]) = true ∧
    sibDirsNodup (phase2 (fun p => String.intercalate "_" p ++ "R") ["r"]
        (.node [("a", .node [("c", emptyDir)] [("b.txt", [104, 105])]),
          ("z", emptyDir)] [("f", [1, 2, 3])])).2 = true ∧
    chunkShaped (phase1 ["r"]
        (.node [("a", .node [("c", emptyDir)] [("b.txt", [104, 105])]),
          ("z", emptyDir)] [("f", [1, 2, 3])])) = true ∧
    ((phase2 (fun p => String.intercalate "_" p ++ "R") ["r"]
        (.node [("a", .node [("c", emptyDir)] [("b.txt", [104, 105])]),
          ("z", emptyDir)] [("f", [1, 2, 3])])).1).length
      = entryCount (.node [("a", .node [("c", emptyDir)]
          [("b.txt", [104, 105])]), ("z", emptyDir)] [("f", [1, 2, 3])]) := by
  have h := pseudosecure_three_phase_wipe
    (fun p => String.intercalate "_" p ++ "R") ["r"]
    (.node [("a", .node [("c", emptyDir)] [("b.txt", [104, 105])]),
      ("z", emptyDir)] [("f", [1, 2, 3])]) (by decide) (by decide)
  exact ⟨by decide, by decide, h.2.2.1, h.2.2.2.2.2.2.1⟩

theorem childNamed_setChild_same {ds : List (String × FsTree)} {n : String}
    {c c2 : FsTree} (h : childNamed ds n = some c) :
    childNamed (setChild ds n c2) n = some c2 := by
  induction ds with
  | nil => cases h
  | cons head rest ih =>
      rw [childNamed] at h
      rw [setChild]
      by_cases he : head.1 = n
      · rw [if_pos he, childNamed, if_pos he]
      · rw [if_neg he, childNamed, if_neg he]
        rw [if_neg he] at h
        exact ih h

theorem childNamed_setChild_other {ds : List (String × FsTree)} {n m : String}
    {c2 : FsTree} (h : m ≠ n) :
    childNamed (setChild ds n c2) m = childNamed ds m := by
  induction ds with
  | nil => rfl
  | cons head rest ih =>
      obtain ⟨hn, hc⟩ := head
      rw [setChild]
      by_cases he : hn = n
      · rw [if_pos he]
        rw [childNamed, childNamed]
        have hm : ¬ hn = m := by rw [he]; exact fun h2 => h h2.symm
        rw [if_neg hm, if_neg hm]
      · rw [if_neg he, childNamed, childNamed]
        by_cases hm : hn = m
        · rw [if_pos hm, if_pos hm]
        · rw [if_neg hm, if_neg hm, ih]

theorem setChild_self {ds : List (String × FsTree)} {n : String} {c : FsTree}
    (h : childNamed ds n = some c) : setChild ds n c = ds := by
  induction ds with
  | nil => rfl
  | cons head rest ih =>
      obtain ⟨hn, hc⟩ := head
      rw [childNamed] at h
      rw [setChild]
      by_cases he : hn = n
      · rw [if_pos he] at h ⊢
        injection h with h2
        rw [h2]
      · rw [if_neg he] at h ⊢
        rw [ih h]

theorem setChild_setChild {ds : List (String × FsTree)} {n : String}
    {a b : FsTree} : setChild (setChild ds n a) n b = setChild ds n b := by
  induction ds with
  | nil => rfl
  | cons head rest ih =>
      obtain ⟨hn, hc⟩ := head
      rw [setChild]
      by_cases he : hn = n
      · rw [if_pos he, setChild, if_pos he, setChild, if_pos he]
      · rw [if_neg he, setChild, if_neg he, setChild, if_neg he, ih]

theorem subtreeAt_mapAt_same {T : FsTree} {p : FPath} {s : FsTree}
    {f : FsTree → FsTree} (h : subtreeAt T p = some s) :
    subtreeAt (mapAt T p f) p = some (f s) := by
  induction p generalizing T with
  | nil =>
      rw [subtreeAt] at h
      injection h with h2
      rw [mapAt, subtreeAt, h2]
  | cons n rest ih =>
      obtain ⟨ds, fls⟩ := T
      rw [subtreeAt] at h
      rw [mapAt]
      cases hc : childNamed ds n with
      | none => rw [hc] at h; cases h
      | some c =>
          rw [hc] at h
          rw [subtreeAt, childNamed_setChild_same hc]
          exact ih h

theorem mapAt_mapAt {T : FsTree} {p : FPath} {f g : FsTree → FsTree} :
    mapAt (mapAt T p f) p g = mapAt T p (fun s => g (f s)) := by
  induction p generalizing T with
  | nil => rw [mapAt, mapAt, mapAt]
  | cons n rest ih =>
      obtain ⟨ds, fls⟩ := T
      cases hc : childNamed ds n with
      | none => simp only [mapAt, hc]
      | some c =>
          simp only [mapAt, hc, childNamed_setChild_same hc, ih,
            setChild_setChild]

theorem mapAt_id_of_subtree {T : FsTree} {p : FPath} {s : FsTree}
    (h : subtreeAt T p = some s) : mapAt T p (fun _ => s) = T := by
  induction p generalizing T with
  | nil =>
      rw [subtreeAt] at h
      injection h with h2
      rw [mapAt, h2]
  | cons n rest ih =>
      obtain ⟨ds, fls⟩ := T
      rw [subtreeAt] at h
      cases hc : childNamed ds n with
      | none => simp only [mapAt, hc]
      | some c =>
          rw [hc] at h
          simp only [mapAt, hc, ih h, setChild_self hc]

theorem mapAt_append {T : FsTree} {p q : FPath} {f : FsTree → FsTree} :
    mapAt T (p ++ q) f = mapAt T p (fun s => mapAt s q f) := by
  induction p generalizing T with
  | nil => rw [List.nil_append, mapAt]
  | cons n rest ih =>
      obtain ⟨ds, fls⟩ := T
      rw [List.cons_append]
      cases hc : childNamed ds n with
      | none => simp only [mapAt, hc]
      | some c => simp only [mapAt, hc, ih]

theorem subtreeAt_append {T : FsTree} {p q : FPath} {s : FsTree}
    (h : subtreeAt T p = some s) : subtreeAt T (p ++ q) = subtreeAt s q := by
  induction p generalizing T with
  | nil =>
      rw [subtreeAt] at h
      injection h with h2
      rw [List.nil_append, h2]
  | cons n rest ih =>
      obtain ⟨ds, fls⟩ := T
      rw [subtreeAt] at h
      rw [List.cons_append, subtreeAt]
      cases hc : childNamed ds n with
      | none => rw [hc] at h; cases h
      | some c =>
          rw [hc] at h
          exact ih h

theorem ensureDirs_of_subtree {T : FsTree} {p : FPath} {s : FsTree}
    (h : subtreeAt T p = some s) : ensureDirs T p = T := by
  induction p generalizing T with
  | nil => rw [ensureDirs]
  | cons n rest ih =>
      obtain ⟨ds, fls⟩ := T
      rw [subtreeAt] at h
      cases hc : childNamed ds n with
      | none => rw [hc] at h; cases h
      | some c =>
          rw [hc] at h
          simp only [ensureDirs, hc, ih h, setChild_self hc]

theorem ensureDirs_append {T : FsTree} {p q : FPath} {s : FsTree}
    (h : subtreeAt T p = some s) :
    ensureDirs T (p ++ q) = mapAt T p (fun s2 => ensureDirs s2 q) := by
  induction p generalizing T with
  | nil =>
      rw [List.nil_append, mapAt]
  | cons n rest ih =>
      obtain ⟨ds, fls⟩ := T
      rw [subtreeAt] at h
      rw [List.cons_append]
      cases hc : childNamed ds n with
      | none => rw [hc] at h; cases h
      | some c =>
          rw [hc] at h
          simp only [ensureDirs, hc, mapAt, ih h]

theorem addFile_append {T : FsTree} {p q : FPath} {s : FsTree}
    {d : List Nat} (hq : q ≠ []) (h : subtreeAt T p = some s) :
    addFile T (p ++ q) d = mapAt T p (fun s2 => addFile s2 q d) := by
  induction p generalizing T with
  | nil => rw [List.nil_append, mapAt]
  | cons n rest ih =>
      obtain ⟨ds, fls⟩ := T
      rw [subtreeAt] at h
      rw [List.cons_append]
      cases hc : childNamed ds n with
      | none => rw [hc] at h; cases h
      | some c =>
          rw [hc] at h
          have hne : rest ++ q ≠ [] := by
            intro h2
            rcases List.append_eq_nil.mp h2 with ⟨_, h4⟩
            exact hq h4
          cases hrq : rest ++ q with
          | nil => exact absurd hrq hne
          | cons a b =>
              simp only [addFile, hc, mapAt]
              rw [← hrq, ih h]

theorem normSteps_good {q : List String} (hg : ∀ e ∈ q, goodName e = true) :
    ∀ root : FPath, normSteps root q = root ++ q := by
  induction q with
  | nil => intro root; rw [normSteps, List.append_nil]
  | cons e rest ih =>
      intro root
      have hge : goodName e = true := hg e (by simp)
      simp only [goodName, Bool.and_eq_true, decide_eq_true_eq,
        Bool.not_eq_true', ne_eq] at hge
      rw [normSteps, if_neg hge.1.2, if_neg (by
        push_neg
        exact ⟨hge.1.1.2, hge.1.1.1⟩)]
      rw [ih (fun x hx => hg x (by simp [hx])) (root ++ [e])]
      simp

theorem commonPre_of_pre (b r : List Char) : commonPre (b ++ r) b = b := by
  induction b with
  | nil =>
      rw [commonPre.eq_def]
      split
      · simp_all
      · rfl
  | cons x xs ih =>
      rw [List.cons_append, commonPre, if_pos rfl, ih]

theorem renderChars_append (p q : FPath) :
    renderChars (p ++ q) = renderChars p ++ renderChars q := by
  induction p with
  | nil => rw [List.nil_append, renderChars, List.nil_append]
  | cons x xs ih => rw [List.cons_append, renderChars, renderChars, ih]; simp

theorem load_path_check_good {root : FPath} {q : List String}
    (hg : ∀ e ∈ q, goodName e = true) : load_path_check root q = true := by
  rw [load_path_check]
  simp only [normSteps_good hg root, renderAbs, commonPreStr]
  rw [renderChars_append]
  show (String.mk (commonPre (renderChars root ++ renderChars q)
      (renderChars root)) == String.mk (renderChars root)) = true
  rw [commonPre_of_pre]
  simp

theorem loadEntriesFrom_none (root : FPath) (es : List ArchiveEntry) :
    loadEntriesFrom root none es = none := by
  cases es with
  | nil => rw [loadEntriesFrom]
  | cons e rest => rw [loadEntriesFrom]

theorem loadEntriesFrom_append (root : FPath) (es1 es2 : List ArchiveEntry) :
    ∀ acc, loadEntriesFrom root acc (es1 ++ es2)
      = loadEntriesFrom root (loadEntriesFrom root acc es1) es2 := by
  induction es1 with
  | nil =>
      intro acc
      rw [List.nil_append, loadEntriesFrom]
  | cons e rest ih =>
      intro acc
      cases acc with
      | none =>
          rw [loadEntriesFrom_none, loadEntriesFrom_none,
            loadEntriesFrom_none]
      | some t =>
          rw [List.cons_append, loadEntriesFrom, loadEntriesFrom]
          by_cases hch : load_path_check root e.rel = true
          · rw [if_pos hch, if_pos hch, ih]
          · rw [if_neg hch, if_neg hch, loadEntriesFrom_none]

theorem setFile_fresh {fs : List (String × List Nat)} {n : String}
    {d : List Nat} (h : n ∉ fs.map Prod.fst) :
    setFile fs n d = fs ++ [(n, d)] := by
  induction fs with
  | nil => rfl
  | cons head rest ih =>
      obtain ⟨hn, hd⟩ := head
      simp only [List.map_cons, List.mem_cons] at h
      push_neg at h
      rw [setFile, if_neg (fun h2 => h.1 h2.symm), ih h.2, List.cons_append]

theorem childNamed_append_no {ds1 ds2 : List (String × FsTree)} {n : String}
    (h : n ∉ ds1.map Prod.fst) :
    childNamed (ds1 ++ ds2) n = childNamed ds2 n := by
  induction ds1 with
  | nil => rfl
  | cons head rest ih =>
      obtain ⟨hn, hc⟩ := head
      simp only [List.map_cons, List.mem_cons] at h
      push_neg at h
      rw [List.cons_append, childNamed, if_neg (fun h2 => h.1 h2.symm),
        ih h.2]

theorem setChild_append_no {ds1 ds2 : List (String × FsTree)} {n : String}
    {c : FsTree} (h : n ∉ ds1.map Prod.fst) :
    setChild (ds1 ++ ds2) n c = ds1 ++ setChild ds2 n c := by
  induction ds1 with
  | nil => rfl
  | cons head rest ih =>
      obtain ⟨hn, hc⟩ := head
      simp only [List.map_cons, List.mem_cons] at h
      push_neg at h
      rw [List.cons_append, setChild, if_neg (fun h2 => h.1 h2.symm),
        ih h.2, List.cons_append]

theorem load_files (root p : FPath) (hgp : ∀ e ∈ p, goodName e = true) :
    ∀ (fls : List (String × List Nat)) (T : FsTree)
      (acc : List (String × List Nat)),
      subtreeAt T p = some (.node [] acc) →
      (∀ nf ∈ fls, goodName nf.1 = true) →
      (fls.map Prod.fst).Nodup →
      (∀ nf ∈ fls, nf.1 ∉ acc.map Prod.fst) →
      loadEntriesFrom root (some T)
          (fls.map (fun nf => ArchiveEntry.file (p ++ [nf.1]) nf.2))
        = some (mapAt T p (fun _ => .node [] (acc ++ fls))) := by
  intro fls
  induction fls with
  | nil =>
      intro T acc hsub _ _ _
      rw [List.map_nil, loadEntriesFrom, List.append_nil,
        mapAt_id_of_subtree hsub]
  | cons nf rest ih =>
      obtain ⟨n1, d1⟩ := nf
      intro T acc hsub hgf hnd hfresh
      rw [List.map_cons, loadEntriesFrom]
      have hch : load_path_check root
          (ArchiveEntry.file (p ++ [n1]) d1).rel = true := by
        rw [ArchiveEntry.rel]
        apply load_path_check_good
        intro e he
        rcases List.mem_append.1 he with h | h
        · exact hgp e h
        · simp only [List.mem_singleton] at h
          rw [h]
          exact hgf (n1, d1) (by simp)
      rw [if_pos hch]
      have hdl : (p ++ [n1]).dropLast = p := by simp
      have hstep : loadStep T (ArchiveEntry.file (p ++ [n1]) d1)
          = mapAt T p (fun s2 => addFile s2 [n1] d1) := by
        rw [loadStep, hdl, ensureDirs_of_subtree hsub]
        exact addFile_append (by simp) hsub
      rw [hstep]
      simp only [List.map_cons, List.nodup_cons] at hnd
      have hsub2 : subtreeAt (mapAt T p (fun s2 => addFile s2 [n1] d1)) p
          = some (FsTree.node [] (acc ++ [(n1, d1)])) := by
        rw [subtreeAt_mapAt_same hsub]
        congr 1
        rw [addFile, setFile_fresh (hfresh (n1, d1) (by simp))]
      have hfresh2 : ∀ x ∈ rest, x.1 ∉ (acc ++ [(n1, d1)]).map Prod.fst := by
        intro x hx
        rw [List.map_append]
        intro hmem
        rcases List.mem_append.1 hmem with h | h
        · exact hfresh x (by simp [hx]) h
        · simp only [List.map_cons, List.map_nil, List.mem_singleton] at h
          exact hnd.1 (h ▸ List.mem_map_of_mem Prod.fst hx)
      rw [ih _ _ hsub2 (fun x hx => hgf x (by simp [hx])) hnd.2 hfresh2]
      rw [mapAt_mapAt]
      have hl : acc ++ [(n1, d1)] ++ rest = acc ++ (n1, d1) :: rest := by
        simp
      rw [hl]

theorem childNamed_none {ds : List (String × FsTree)} {n : String}
    (h : n ∉ ds.map Prod.fst) : childNamed ds n = none := by
  induction ds with
  | nil => rfl
  | cons head rest ih =>
      obtain ⟨hn, hc⟩ := head
      simp only [List.map_cons, List.mem_cons] at h
      push_neg at h
      rw [childNamed, if_neg (fun h2 => h.1 h2.symm), ih h.2]

theorem load_dirEntries (root p : FPath) (hgp : ∀ e ∈ p, goodName e = true) :
    ∀ (ds : List (String × FsTree)) (T : FsTree)
      (accD : List (String × FsTree)) (fls0 : List (String × List Nat)),
      subtreeAt T p = some (.node accD fls0) →
      (∀ nd ∈ ds, goodName nd.1 = true) →
      (ds.map Prod.fst).Nodup →
      (∀ nd ∈ ds, nd.1 ∉ accD.map Prod.fst) →
      loadEntriesFrom root (some T)
          (ds.map (fun nd => ArchiveEntry.dir (p ++ [nd.1])))
        = some (mapAt T p (fun _ =>
            .node (accD ++ ds.map (fun nd => (nd.1, emptyDir))) fls0)) := by
  intro ds
  induction ds with
  | nil =>
      intro T accD fls0 hsub _ _ _
      rw [List.map_nil, loadEntriesFrom, List.map_nil, List.append_nil,
        mapAt_id_of_subtree hsub]
  | cons nd rest ih =>
      obtain ⟨n1, c1⟩ := nd
      intro T accD fls0 hsub hgd hnd hfresh
      rw [List.map_cons, loadEntriesFrom]
      have hch : load_path_check root
          (ArchiveEntry.dir (p ++ [n1])).rel = true := by
        rw [ArchiveEntry.rel]
        apply load_path_check_good
        intro e he
        rcases List.mem_append.1 he with h | h
        · exact hgp e h
        · simp only [List.mem_singleton] at h
          rw [h]
          exact hgd (n1, c1) (by simp)
      rw [if_pos hch]
      have hstep : loadStep T (ArchiveEntry.dir (p ++ [n1]))
          = mapAt T p (fun s2 => ensureDirs s2 [n1]) := by
        rw [loadStep]
        exact ensureDirs_append hsub
      rw [hstep]
      simp only [List.map_cons, List.nodup_cons] at hnd
      have hloc : ensureDirs (FsTree.node accD fls0) [n1]
          = FsTree.node (accD ++ [(n1, emptyDir)]) fls0 := by
        rw [ensureDirs, childNamed_none (hfresh (n1, c1) (by simp)),
          ensureDirs]
      have hsub2 : subtreeAt (mapAt T p (fun s2 => ensureDirs s2 [n1])) p
          = some (FsTree.node (accD ++ [(n1, emptyDir)]) fls0) := by
        rw [subtreeAt_mapAt_same hsub, hloc]
      have hfresh2 : ∀ x ∈ rest,
          x.1 ∉ (accD ++ [(n1, emptyDir)]).map Prod.fst := by
        intro x hx
        rw [List.map_append]
        intro hmem
        rcases List.mem_append.1 hmem with h | h
        · exact hfresh x (by simp [hx]) h
        · simp only [List.map_cons, List.map_nil, List.mem_singleton] at h
          exact hnd.1 (h ▸ List.mem_map_of_mem Prod.fst hx)
      rw [ih _ _ _ hsub2 (fun x hx => hgd x (by simp [hx])) hnd.2 hfresh2]
      rw [mapAt_mapAt]
      have hl : accD ++ [(n1, emptyDir)] ++ rest.map (fun nd =>
            (nd.1, emptyDir))
          = accD ++ (n1, emptyDir) :: rest.map (fun nd => (nd.1, emptyDir))
          := by simp
      rw [hl]
      simp only [List.map_cons]

theorem subtreeAt_cons_eq (ds : List (String × FsTree))
    (fls : List (String × List Nat)) (n : String) (rest : FPath) :
    subtreeAt (.node ds fls) (n :: rest)
      = match childNamed ds n with
        | some c => subtreeAt c rest
        | none => none := rfl

theorem load_children (root p : FPath) (hgp : ∀ e ∈ p, goodName e = true) :
    ∀ (ds : List (String × FsTree)) (T : FsTree)
      (done : List (String × FsTree)) (fls0 : List (String × List Nat)),
      (∀ x ∈ ds, ∀ (T2 : FsTree) (p2 : FPath),
        (∀ e ∈ p2, goodName e = true) → subtreeAt T2 p2 = some emptyDir →
        loadEntriesFrom root (some T2) (walkDump p2 x.2)
          = some (mapAt T2 p2 (fun _ => x.2))) →
      subtreeAt T p
        = some (.node (done ++ ds.map (fun nd => (nd.1, emptyDir))) fls0) →
      (∀ nd ∈ ds, goodName nd.1 = true) →
      (ds.map Prod.fst).Nodup →
      (∀ nd ∈ ds, nd.1 ∉ done.map Prod.fst) →
      loadEntriesFrom root (some T) (walkDumpChildren p ds)
        = some (mapAt T p (fun _ => .node (done ++ ds) fls0)) := by
  intro ds
  induction ds with
  | nil =>
      intro T done fls0 _ hsub _ _ _
      rw [List.map_nil, List.append_nil] at hsub
      rw [walkDumpChildren, loadEntriesFrom, List.append_nil,
        mapAt_id_of_subtree hsub]
  | cons nd rest ihl =>
      obtain ⟨n1, c1⟩ := nd
      intro T done fls0 hm hsub hgd hnd hfresh
      simp only [List.map_cons] at hsub
      simp only [List.map_cons, List.nodup_cons] at hnd
      have hn1f := hfresh (n1, c1) (by simp)
      rw [walkDumpChildren, loadEntriesFrom_append]
      have hsubn : subtreeAt T (p ++ [n1]) = some emptyDir := by
        rw [subtreeAt_append hsub]
        have hcn : childNamed (done ++ (n1, emptyDir)
            :: rest.map (fun nd => (nd.1, emptyDir))) n1 = some emptyDir := by
          rw [childNamed_append_no hn1f, childNamed, if_pos rfl]
        rw [subtreeAt_cons_eq, hcn]
        rfl
      have hgp2 : ∀ e ∈ p ++ [n1], goodName e = true := by
        intro e he
        rcases List.mem_append.1 he with h | h
        · exact hgp e h
        · simp only [List.mem_singleton] at h
          rw [h]
          exact hgd (n1, c1) (by simp)
      have h1 := hm (n1, c1) (by simp) T (p ++ [n1]) hgp2 hsubn
      rw [h1]
      have hsub2 : subtreeAt (mapAt T (p ++ [n1]) (fun _ => c1)) p =
          some (.node ((done ++ [(n1, c1)])
            ++ rest.map (fun nd => (nd.1, emptyDir))) fls0) := by
        rw [mapAt_append, subtreeAt_mapAt_same hsub]
        congr 1
        simp only [mapAt, childNamed_append_no hn1f, childNamed, if_pos rfl]
        rw [setChild_append_no hn1f, setChild, if_pos rfl]
        simp
      have hfresh2 : ∀ x ∈ rest, x.1 ∉ (done ++ [(n1, c1)]).map Prod.fst := by
        intro x hx
        rw [List.map_append]
        intro hmem
        rcases List.mem_append.1 hmem with h | h
        · exact hfresh x (by simp [hx]) h
        · simp only [List.map_cons, List.map_nil, List.mem_singleton] at h
          exact hnd.1 (h ▸ List.mem_map_of_mem Prod.fst hx)
      rw [ihl _ _ _ (fun x hx => hm x (by simp [hx])) hsub2
        (fun x hx => hgd x (by simp [hx])) hnd.2 hfresh2]
      rw [mapAt_append, mapAt_mapAt]
      have hl : (done ++ [(n1, c1)]) ++ rest = done ++ (n1, c1) :: rest := by
        simp
      rw [hl]

theorem wellFormedChildren_mem : ∀ (ds : List (String × FsTree)),
    wellFormedChildren ds = true → ∀ x ∈ ds, wellFormed x.2 = true := by
  intro ds
  induction ds with
  | nil => intro _ x hx; cases hx
  | cons head rest ih =>
      intro h x hx
      obtain ⟨h1, h2⟩ := wellFormedChildren_parts h
      rcases List.mem_cons.1 hx with rfl | hx2
      · exact h1
      · exact ih h2 x hx2

theorem lookup_self_of_nodup {fls : List (String × List Nat)} {n : String}
    {d : List Nat} (hnd : (fls.map Prod.fst).Nodup) (h : (n, d) ∈ fls) :
    fls.lookup n = some d := by
  induction fls with
  | nil => cases h
  | cons head rest ih =>
      obtain ⟨m, e⟩ := head
      simp only [List.map_cons, List.nodup_cons] at hnd
      rcases List.mem_cons.1 h with heq | hmem
      · injection heq with h1 h2
        have hb : (n == m) = true := beq_iff_eq.2 h1
        simp only [List.lookup, hb, h2]
      · have hne : n ≠ m := by
          intro he
          exact hnd.1 (he ▸ List.mem_map_of_mem Prod.fst hmem)
        have hb : (n == m) = false := beq_eq_false_iff_ne.2 hne
        simp only [List.lookup, hb]
        exact ih hnd.2 hmem

theorem setFile_id {fls : List (String × List Nat)} {n : String}
    {d : List Nat} (h : fls.lookup n = some d) : setFile fls n d = fls := by
  induction fls with
  | nil => cases h
  | cons head rest ih =>
      obtain ⟨m, e⟩ := head
      rw [List.lookup] at h
      by_cases he : n = m
      · have hb : (n == m) = true := beq_iff_eq.2 he
        rw [hb] at h
        injection h with h2
        rw [setFile, if_pos he.symm, h2]
      · have hb : (n == m) = false := beq_eq_false_iff_ne.2 he
        rw [hb] at h
        rw [setFile, if_neg (fun h2 => he h2.symm), ih h]

theorem childNamed_of_mem_nodup {ds : List (String × FsTree)} {n : String}
    {c : FsTree} (hnd : (ds.map Prod.fst).Nodup) (h : (n, c) ∈ ds) :
    childNamed ds n = some c := by
  induction ds with
  | nil => cases h
  | cons head rest ih =>
      obtain ⟨m, e⟩ := head
      simp only [List.map_cons, List.nodup_cons] at hnd
      rcases List.mem_cons.1 h with heq | hmem
      · injection heq with h1 h2
        rw [childNamed, if_pos h1.symm, h2]
      · have hne : m ≠ n := by
          intro he
          exact hnd.1 (by rw [he]; exact List.mem_map_of_mem Prod.fst hmem)
        rw [childNamed, if_neg hne]
        exact ih hnd.2 hmem

theorem mapAt_congr_subtree {T : FsTree} {p : FPath} {s : FsTree}
    {f : FsTree → FsTree} (h : subtreeAt T p = some s) :
    mapAt T p f = mapAt T p (fun _ => f s) := by
  induction p generalizing T with
  | nil =>
      rw [subtreeAt] at h
      injection h with h2
      rw [mapAt, mapAt, h2]
  | cons n rest ih =>
      obtain ⟨ds, fls⟩ := T
      rw [subtreeAt] at h
      cases hc : childNamed ds n with
      | none => simp only [mapAt, hc]
      | some c =>
          rw [hc] at h
          simp only [mapAt, hc, ih h]

theorem load_files_idem (root p : FPath)
    (hgp : ∀ e ∈ p, goodName e = true) :
    ∀ (fls2 : List (String × List Nat)) (T : FsTree)
      (ds0 : List (String × FsTree)) (fls0 : List (String × List Nat)),
      subtreeAt T p = some (.node ds0 fls0) →
      (∀ nf ∈ fls2, goodName nf.1 = true) →
      (∀ nf ∈ fls2, fls0.lookup nf.1 = some nf.2) →
      loadEntriesFrom root (some T)
          (fls2.map (fun nf => ArchiveEntry.file (p ++ [nf.1]) nf.2))
        = some T := by
  intro fls2
  induction fls2 with
  | nil =>
      intro T ds0 fls0 _ _ _
      rw [List.map_nil, loadEntriesFrom]
  | cons nf rest ih =>
      obtain ⟨n1, d1⟩ := nf
      intro T ds0 fls0 hsub hgf hbind
      rw [List.map_cons, loadEntriesFrom]
      have hch : load_path_check root
          (ArchiveEntry.file (p ++ [n1]) d1).rel = true := by
        rw [ArchiveEntry.rel]
        apply load_path_check_good
        intro e he
        rcases List.mem_append.1 he with h | h
        · exact hgp e h
        · simp only [List.mem_singleton] at h
          rw [h]
          exact hgf (n1, d1) (by simp)
      rw [if_pos hch]
      have hloc : addFile (FsTree.node ds0 fls0) [n1] d1
          = FsTree.node ds0 fls0 := by
        rw [addFile, setFile_id (hbind (n1, d1) (by simp))]
      have hstep : loadStep T (ArchiveEntry.file (p ++ [n1]) d1) = T := by
        have hdl : (p ++ [n1]).dropLast = p := by simp
        rw [loadStep, hdl, ensureDirs_of_subtree hsub,
          addFile_append (by simp) hsub, mapAt_congr_subtree hsub]
        simp only [hloc]
        exact mapAt_id_of_subtree hsub
      rw [hstep]
      exact ih T ds0 fls0 hsub (fun x hx => hgf x (by simp [hx]))
        (fun x hx => hbind x (by simp [hx]))

theorem load_tarChildren (root p : FPath)
    (hgp : ∀ e ∈ p, goodName e = true) :
    ∀ (ds : List (String × FsTree)) (T : FsTree)
      (done : List (String × FsTree)) (fls0 : List (String × List Nat)),
      (∀ x ∈ ds, ∀ (T2 : FsTree) (p2 : FPath),
        (∀ e ∈ p2, goodName e = true) → subtreeAt T2 p2 = some emptyDir →
        wellFormed x.2 = true →
        loadEntriesFrom root (some T2)
            ((x.2).files.map (fun nf => ArchiveEntry.file (p2 ++ [nf.1]) nf.2)
              ++ tarAddChildren p2 (x.2).dirs)
          = some (mapAt T2 p2 (fun _ => x.2))) →
      subtreeAt T p = some (.node done fls0) →
      (∀ nd ∈ ds, goodName nd.1 = true) →
      (ds.map Prod.fst).Nodup →
      (∀ nd ∈ ds, nd.1 ∉ done.map Prod.fst) →
      wellFormedChildren ds = true →
      loadEntriesFrom root (some T) (tarAddChildren p ds)
        = some (mapAt T p (fun _ => .node (done ++ ds) fls0)) := by
  intro ds
  induction ds with
  | nil =>
      intro T done fls0 _ hsub _ _ _ _
      rw [tarAddChildren, loadEntriesFrom, List.append_nil,
        mapAt_id_of_subtree hsub]
  | cons nd rest ihl =>
      obtain ⟨n1, c1⟩ := nd
      intro T done fls0 hm hsub hgd hnd hfresh hwfc
      obtain ⟨hwfh, hwfr⟩ := wellFormedChildren_parts hwfc
      simp only [List.map_cons, List.nodup_cons] at hnd
      have hn1f := hfresh (n1, c1) (by simp)
      have hgp2 : ∀ e ∈ p ++ [n1], goodName e = true := by
        intro e he
        rcases List.mem_append.1 he with h | h
        · exact hgp e h
        · simp only [List.mem_singleton] at h
          rw [h]
          exact hgd (n1, c1) (by simp)
      rw [tarAddChildren, loadEntriesFrom_append]
      cases c1 with
      | node dsc flsc =>
          rw [tarAddDir, loadEntriesFrom]
          have hch : load_path_check root
              (ArchiveEntry.dir (p ++ [n1])).rel = true := by
            rw [ArchiveEntry.rel]
            exact load_path_check_good hgp2
          rw [if_pos hch]
          have hloc : ensureDirs (FsTree.node done fls0) [n1]
              = FsTree.node (done ++ [(n1, emptyDir)]) fls0 := by
            rw [ensureDirs, childNamed_none hn1f, ensureDirs]
          have hstep : loadStep T (ArchiveEntry.dir (p ++ [n1]))
              = mapAt T p (fun s2 => ensureDirs s2 [n1]) := by
            rw [loadStep]
            exact ensureDirs_append hsub
          rw [hstep]
          have hsub1 : subtreeAt (mapAt T p (fun s2 => ensureDirs s2 [n1])) p
              = some (FsTree.node (done ++ [(n1, emptyDir)]) fls0) := by
            rw [subtreeAt_mapAt_same hsub, hloc]
          have hcn : childNamed (done ++ [(n1, emptyDir)]) n1
              = some emptyDir := by
            rw [childNamed_append_no hn1f, childNamed, if_pos rfl]
          have hsubn : subtreeAt (mapAt T p (fun s2 => ensureDirs s2 [n1]))
              (p ++ [n1]) = some emptyDir := by
            rw [subtreeAt_append hsub1, subtreeAt_cons_eq, hcn]
            rfl
          have h1 := hm (n1, FsTree.node dsc flsc) (by simp) _ (p ++ [n1])
            hgp2 hsubn hwfh
          simp only [FsTree.files, FsTree.dirs] at h1
          rw [h1]
          have hsub2 : subtreeAt (mapAt (mapAt T p
              (fun s2 => ensureDirs s2 [n1])) (p ++ [n1])
                (fun _ => FsTree.node dsc flsc)) p
              = some (FsTree.node (done ++ [(n1, FsTree.node dsc flsc)])
                  fls0) := by
            rw [mapAt_append, subtreeAt_mapAt_same hsub1]
            congr 1
            simp only [mapAt, hcn]
            rw [setChild_append_no hn1f, setChild, if_pos rfl]
          have hfresh2 : ∀ x ∈ rest,
              x.1 ∉ (done ++ [(n1, FsTree.node dsc flsc)]).map Prod.fst := by
            intro x hx
            rw [List.map_append]
            intro hmem
            rcases List.mem_append.1 hmem with h | h
            · exact hfresh x (by simp [hx]) h
            · simp only [List.map_cons, List.map_nil,
                List.mem_singleton] at h
              exact hnd.1 (h ▸ List.mem_map_of_mem Prod.fst hx)
          rw [ihl _ _ _ (fun x hx => hm x (by simp [hx])) hsub2
            (fun x hx => hgd x (by simp [hx])) hnd.2 hfresh2 hwfr]
          rw [mapAt_append, mapAt_mapAt, mapAt_mapAt]
          have hl : (done ++ [(n1, FsTree.node dsc flsc)]) ++ rest
              = done ++ (n1, FsTree.node dsc flsc) :: rest := by
            simp
          rw [hl]

theorem load_tarContents (t : FsTree) : ∀ (root : FPath) (T : FsTree)
    (p : FPath), wellFormed t = true → (∀ e ∈ p, goodName e = true) →
    subtreeAt T p = some emptyDir →
    loadEntriesFrom root (some T)
        (t.files.map (fun nf => ArchiveEntry.file (p ++ [nf.1]) nf.2)
          ++ tarAddChildren p t.dirs)
      = some (mapAt T p (fun _ => t)) := by
  induction t using fsTree_strong_ind with
  | _ ds fls ihm =>
      intro root T p hwf hgp hsub
      simp only [wellFormed, Bool.and_eq_true, decide_eq_true_eq] at hwf
      obtain ⟨⟨⟨hgd, hgf⟩, hnd⟩, hwfc⟩ := hwf
      rcases List.nodup_append.mp hnd with ⟨hndd, hndf, _⟩
      have hgf2 : ∀ nf ∈ fls, goodName nf.1 = true := by
        intro nf hnf
        rw [List.all_eq_true] at hgf
        exact hgf nf.1 (List.mem_map_of_mem Prod.fst hnf)
      have hgd2 : ∀ nd ∈ ds, goodName nd.1 = true := by
        intro nd hn2
        rw [List.all_eq_true] at hgd
        exact hgd nd.1 (List.mem_map_of_mem Prod.fst hn2)
      have hsub0 : subtreeAt T p = some (FsTree.node [] []) := hsub
      simp only [FsTree.files, FsTree.dirs]
      rw [loadEntriesFrom_append]
      have hA := load_files root p hgp fls T [] hsub0 hgf2 hndf
        (by intro nf _; simp)
      simp only [List.nil_append] at hA
      rw [hA]
      have hsubB : subtreeAt (mapAt T p (fun _ => FsTree.node [] fls)) p
          = some (FsTree.node [] fls) := subtreeAt_mapAt_same hsub0
      have hC := load_tarChildren root p hgp ds _ [] fls
        (fun x hx T2 p2 hg2 hs2 hw2 => ihm x hx root T2 p2 hw2 hg2 hs2)
        hsubB hgd2 hndd (by intro nd _; simp) hwfc
      simp only [List.nil_append] at hC
      rw [hC, mapAt_mapAt]

theorem load_tarChildren_idem (root p : FPath)
    (hgp : ∀ e ∈ p, goodName e = true) :
    ∀ (ds : List (String × FsTree)) (T : FsTree),
      (∀ x ∈ ds, ∀ (T2 : FsTree) (p2 : FPath),
        (∀ e ∈ p2, goodName e = true) → wellFormed x.2 = true →
        subtreeAt T2 p2 = some x.2 →
        loadEntriesFrom root (some T2)
            ((x.2).files.map (fun nf => ArchiveEntry.file (p2 ++ [nf.1]) nf.2)
              ++ tarAddChildren p2 (x.2).dirs)
          = some T2) →
      (∀ nd ∈ ds, goodName nd.1 = true) →
      wellFormedChildren ds = true →
      (∀ nd ∈ ds, subtreeAt T (p ++ [nd.1]) = some nd.2) →
      loadEntriesFrom root (some T) (tarAddChildren p ds) = some T := by
  intro ds
  induction ds with
  | nil =>
      intro T _ _ _ _
      rw [tarAddChildren, loadEntriesFrom]
  | cons nd rest ihl =>
      obtain ⟨n1, c1⟩ := nd
      intro T hm hgd hwfc hsubs
      obtain ⟨hwfh, hwfr⟩ := wellFormedChildren_parts hwfc
      have hgp2 : ∀ e ∈ p ++ [n1], goodName e = true := by
        intro e he
        rcases List.mem_append.1 he with h | h
        · exact hgp e h
        · simp only [List.mem_singleton] at h
          rw [h]
          exact hgd (n1, c1) (by simp)
      rw [tarAddChildren, loadEntriesFrom_append]
      cases c1 with
      | node dsc flsc =>
          rw [tarAddDir, loadEntriesFrom]
          have hch : load_path_check root
              (ArchiveEntry.dir (p ++ [n1])).rel = true := by
            rw [ArchiveEntry.rel]
            exact load_path_check_good hgp2
          rw [if_pos hch]
          have hstep : loadStep T (ArchiveEntry.dir (p ++ [n1])) = T := by
            rw [loadStep]
            exact ensureDirs_of_subtree
              (hsubs (n1, FsTree.node dsc flsc) (by simp))
          rw [hstep]
          have h1 := hm (n1, FsTree.node dsc flsc) (by simp) T (p ++ [n1])
            hgp2 hwfh (hsubs (n1, FsTree.node dsc flsc) (by simp))
          simp only [FsTree.files, FsTree.dirs] at h1
          rw [h1]
          exact ihl T (fun x hx => hm x (by simp [hx]))
            (fun x hx => hgd x (by simp [hx])) hwfr
            (fun x hx => hsubs x (by simp [hx]))

theorem load_tarContents_idem (t : FsTree) : ∀ (root : FPath) (T : FsTree)
    (p : FPath), wellFormed t = true → (∀ e ∈ p, goodName e = true) →
    subtreeAt T p = some t →
    loadEntriesFrom root (some T)
        (t.files.map (fun nf => ArchiveEntry.file (p ++ [nf.1]) nf.2)
          ++ tarAddChildren p t.dirs)
      = some T := by
  induction t using fsTree_strong_ind with
  | _ ds fls ihm =>
      intro root T p hwf hgp hsub
      simp only [wellFormed, Bool.and_eq_true, decide_eq_true_eq] at hwf
      obtain ⟨⟨⟨hgd, hgf⟩, hnd⟩, hwfc⟩ := hwf
      rcases List.nodup_append.mp hnd with ⟨hndd, hndf, _⟩
      have hgf2 : ∀ nf ∈ fls, goodName nf.1 = true := by
        intro nf hnf
        rw [List.all_eq_true] at hgf
        exact hgf nf.1 (List.mem_map_of_mem Prod.fst hnf)
      have hgd2 : ∀ nd ∈ ds, goodName nd.1 = true := by
        intro nd hn2
        rw [List.all_eq_true] at hgd
        exact hgd nd.1 (List.mem_map_of_mem Prod.fst hn2)
      simp only [FsTree.files, FsTree.dirs]
      rw [loadEntriesFrom_append]
      have hfiles := load_files_idem root p hgp fls T ds fls hsub hgf2
        (fun nf hnf => lookup_self_of_nodup hndf hnf)
      rw [hfiles]
      apply load_tarChildren_idem root p hgp ds T
        (fun x hx T2 p2 hg2 hw2 hs2 => ihm x hx root T2 p2 hw2 hg2 hs2)
        hgd2 hwfc
      intro nd hn2
      rw [subtreeAt_append hsub, subtreeAt_cons_eq,
        childNamed_of_mem_nodup hndd hn2]
      obtain ⟨nm, c⟩ := nd
      cases c
      rfl

theorem load_walkChildren_idem (root p : FPath)
    (hgp : ∀ e ∈ p, goodName e = true) :
    ∀ (ds : List (String × FsTree)) (T : FsTree),
      (∀ x ∈ ds, ∀ (T2 : FsTree) (p2 : FPath),
        (∀ e ∈ p2, goodName e = true) → wellFormed x.2 = true →
        subtreeAt T2 p2 = some x.2 →
        loadEntriesFrom root (some T2) (walkDump p2 x.2) = some T2) →
      (∀ nd ∈ ds, goodName nd.1 = true) →
      wellFormedChildren ds = true →
      (∀ nd ∈ ds, subtreeAt T (p ++ [nd.1]) = some nd.2) →
      loadEntriesFrom root (some T) (walkDumpChildren p ds) = some T := by
  intro ds
  induction ds with
  | nil =>
      intro T _ _ _ _
      rw [walkDumpChildren, loadEntriesFrom]
  | cons nd rest ihl =>
      obtain ⟨n1, c1⟩ := nd
      intro T hm hgd hwfc hsubs
      obtain ⟨hwfh, hwfr⟩ := wellFormedChildren_parts hwfc
      have hgp2 : ∀ e ∈ p ++ [n1], goodName e = true := by
        intro e he
        rcases List.mem_append.1 he with h | h
        · exact hgp e h
        · simp only [List.mem_singleton] at h
          rw [h]
          exact hgd (n1, c1) (by simp)
      rw [walkDumpChildren, loadEntriesFrom_append]
      have h1 := hm (n1, c1) (by simp) T (p ++ [n1]) hgp2 hwfh
        (hsubs (n1, c1) (by simp))
      rw [h1]
      exact ihl T (fun x hx => hm x (by simp [hx]))
        (fun x hx => hgd x (by simp [hx])) hwfr
        (fun x hx => hsubs x (by simp [hx]))

theorem load_walkDump_idem (t : FsTree) : ∀ (root : FPath) (T : FsTree)
    (p : FPath), wellFormed t = true → (∀ e ∈ p, goodName e = true) →
    subtreeAt T p = some t →
    loadEntriesFrom root (some T) (walkDump p t) = some T := by
  induction t using fsTree_strong_ind with
  | _ ds fls ihm =>
      intro root T p hwf hgp hsub
      have hwf2 := hwf
      simp only [wellFormed, Bool.and_eq_true, decide_eq_true_eq] at hwf2
      obtain ⟨⟨⟨hgd, _⟩, hnd⟩, hwfc⟩ := hwf2
      rcases List.nodup_append.mp hnd with ⟨hndd, _, _⟩
      have hgd2 : ∀ nd ∈ ds, goodName nd.1 = true := by
        intro nd hn2
        rw [List.all_eq_true] at hgd
        exact hgd nd.1 (List.mem_map_of_mem Prod.fst hn2)
      rw [walkDump, loadEntriesFrom_append]
      have hAB := load_tarContents_idem (FsTree.node ds fls) root T p hwf
        hgp hsub
      simp only [FsTree.files, FsTree.dirs] at hAB
      rw [hAB]
      apply load_walkChildren_idem root p hgp ds T
        (fun x hx T2 p2 hg2 hw2 hs2 => ihm x hx root T2 p2 hw2 hg2 hs2)
        hgd2 hwfc
      intro nd hn2
      rw [subtreeAt_append hsub, subtreeAt_cons_eq,
        childNamed_of_mem_nodup hndd hn2]
      obtain ⟨nm, c⟩ := nd
      cases c
      rfl

theorem load_walkDump (t : FsTree) : ∀ (root : FPath) (T : FsTree)
    (p : FPath), wellFormed t = true → (∀ e ∈ p, goodName e = true) →
    subtreeAt T p = some emptyDir →
    loadEntriesFrom root (some T) (walkDump p t)
      = some (mapAt T p (fun _ => t)) := by
  cases t with
  | node ds fls =>
      intro root T p hwf hgp hsub
      have hwf2 := hwf
      simp only [wellFormed, Bool.and_eq_true, decide_eq_true_eq] at hwf2
      obtain ⟨⟨⟨hgd, _⟩, hnd⟩, hwfc⟩ := hwf2
      rcases List.nodup_append.mp hnd with ⟨hndd, _, _⟩
      have hgd2 : ∀ nd ∈ ds, goodName nd.1 = true := by
        intro nd hn2
        rw [List.all_eq_true] at hgd
        exact hgd nd.1 (List.mem_map_of_mem Prod.fst hn2)
      rw [walkDump, loadEntriesFrom_append]
      have hAB := load_tarContents (FsTree.node ds fls) root T p hwf hgp
        hsub
      simp only [FsTree.files, FsTree.dirs] at hAB
      rw [hAB]
      have hsubT : subtreeAt (mapAt T p (fun _ => FsTree.node ds fls)) p
          = some (FsTree.node ds fls) := subtreeAt_mapAt_same hsub
      apply load_walkChildren_idem root p hgp ds _
        (fun x hx T2 p2 hg2 hw2 hs2 =>
          load_walkDump_idem x.2 root T2 p2 hw2 hg2 hs2)
        hgd2 hwfc
      intro nd hn2
      rw [subtreeAt_append hsubT, subtreeAt_cons_eq,
        childNamed_of_mem_nodup hndd hn2]
      obtain ⟨nm, c⟩ := nd
      cases c
      rfl

/-- C2: `dump` over the tar-like container followed by `load` of the
resulting entry stream into a fresh sandbox reproduces the directory
tree exactly — the same relative paths with identical file byte
contents, directory entries included — for every well-formed tree
(legal, duplicate-free sibling names) and every sandbox root: every
entry passes the containment check and extraction rebuilds the tree
node for node. -/
theorem dump_load_roundtrip (t : FsTree) (root : FPath)
    (hwf : wellFormed t = true) :
    loadArchive root (walkDump [] t) = some t := by
  have h := load_walkDump t root emptyDir [] hwf (by intro e he; cases he)
    rfl
  rw [loadArchive, h, mapAt]

/-- Witness for C2: the round trip at a concrete two-level tree and a
concrete sandbox root. -/
theorem dump_load_roundtrip_witness :
    wellFormed (.node [("a", .node [("c", emptyDir)] [("b.txt", [104, 105])]),
        ("z", emptyDir)] [("f", [1, 2, 3])]) = true ∧
    loadArchive ["outer", "tmp"]
        (walkDump [] (.node [("a", .node [("c", emptyDir)]
          [("b.txt", [104, 105])]), ("z", emptyDir)] [("f", [1, 2, 3])]))
      = some (.node [("a", .node [("c", emptyDir)] [("b.txt", [104, 105])]),
          ("z", emptyDir)] [("f", [1, 2, 3])]) :=
  ⟨by decide, dump_load_roundtrip
    (.node [("a", .node [("c", emptyDir)] [("b.txt", [104, 105])]),
      ("z", emptyDir)] [("f", [1, 2, 3])]) ["outer", "tmp"] (by decide)⟩
